import Mathlib

/-
Verification development for the val-teamdb repository
(src/tools/clean-teams.js: a cleanup script over teamdb/teams.json and an
expand/merge script that scrapes regional rankings and merges new teams).

The two scripts are embedded shallowly: JS strings become Lean `String`
(a list of characters), JS arrays become `List`, the insertion-ordered
`Map` becomes an association list with position-preserving update, and the
per-region network fetch of the expand script is modelled as an oracle
parameter `Option (List String)` (`none` = the fetch/extract threw,
`some names` = the extracted candidate list), matching the per-region
try/catch boundary in the source.

Unicode points that need care:
* `String.prototype.normalize` (NFKD in `toSlug`, NFD in `slugify`) is
  modelled by a finite decomposition table over the Latin accented letters;
  it is the identity on ASCII, exactly as real NFD/NFKD are.  For every
  character in the table NFD and NFKD coincide, and the combining marks
  produced all lie in U+0300..U+036F and all carry the Diacritic property,
  so the two mark-stripping regexes of the source coincide on them.
* `toLowerCase` is modelled on ASCII (`jsLower`); non-ASCII letters are in
  any case collapsed to hyphens by the slug pipelines.
* `localeCompare` is modelled as ICU root collation restricted to ASCII:
  primary comparison of the lowercased code points, ties broken by case
  (lowercase before uppercase).  On slug strings (lowercase letters,
  digits, hyphens) this coincides with plain code-point order.
* `Array.prototype.sort` is stable (ES2019); it is modelled by a stable
  insertion sort `sortLe`.
-/

namespace TeamDB

/-- Whitespace class used by the `\s` regex class and `String.trim` of the
source; the ASCII whitespace characters (exotic Unicode spaces are not
modelled, no input here contains them). -/
def isWs (c : Char) : Bool :=
  c = ' ' || c = '\t' || c = '\n' || c = '\r' || c = '\x0b' || c = '\x0c'

/-- The `\d` regex class: ASCII decimal digits. -/
def isDigitChar (c : Char) : Bool := 48 ≤ c.toNat && c.toNat ≤ 57

/-- Model of `String.prototype.trim`: drop whitespace from both ends. -/
def trimBoth (l : List Char) : List Char :=
  ((l.dropWhile isWs).reverse.dropWhile isWs).reverse

/-- clean-teams.js line 9-12:
`s.replace(/^\s*\d+\s*\.?\s*/u, "").trim()` — remove a leading run of
whitespace, digits, optional whitespace, an optional dot and more
whitespace (a "rank number"), then trim. The regex matches only when at
least one digit follows the leading whitespace. -/
def stripRankPrefix (s : String) : String :=
  let cs := s.data
  let rest := cs.dropWhile isWs
  let out :=
    match rest with
    | c :: _ =>
      if isDigitChar c then
        let r1 := rest.dropWhile isDigitChar
        let r2 := r1.dropWhile isWs
        match r2 with
        | '.' :: t => t.dropWhile isWs
        | _ => r2
      else cs
    | [] => cs
  ⟨trimBoth out⟩

/-- Decomposition table for the accented Latin letters: each maps to its
base letter followed by a combining mark in U+0300..U+036F.  This is the
(partial, faithful) model of Unicode NFD/NFKD used by both scripts. -/
def decompTable : List (Char × List Char) :=
  [ ('á', ['a', '́']), ('à', ['a', '̀']), ('â', ['a', '̂']),
    ('ä', ['a', '̈']), ('ã', ['a', '̃']), ('å', ['a', '̊']),
    ('é', ['e', '́']), ('è', ['e', '̀']), ('ê', ['e', '̂']),
    ('ë', ['e', '̈']),
    ('í', ['i', '́']), ('ì', ['i', '̀']), ('î', ['i', '̂']),
    ('ï', ['i', '̈']),
    ('ó', ['o', '́']), ('ò', ['o', '̀']), ('ô', ['o', '̂']),
    ('ö', ['o', '̈']), ('õ', ['o', '̃']),
    ('ú', ['u', '́']), ('ù', ['u', '̀']), ('û', ['u', '̂']),
    ('ü', ['u', '̈']),
    ('ý', ['y', '́']), ('ñ', ['n', '̃']), ('ç', ['c', '̧']),
    ('Á', ['A', '́']), ('À', ['A', '̀']), ('Â', ['A', '̂']),
    ('Ä', ['A', '̈']), ('Ã', ['A', '̃']), ('Å', ['A', '̊']),
    ('É', ['E', '́']), ('È', ['E', '̀']), ('Ê', ['E', '̂']),
    ('Ë', ['E', '̈']),
    ('Í', ['I', '́']), ('Ì', ['I', '̀']), ('Î', ['I', '̂']),
    ('Ï', ['I', '̈']),
    ('Ó', ['O', '́']), ('Ò', ['O', '̀']), ('Ô', ['O', '̂']),
    ('Ö', ['O', '̈']), ('Õ', ['O', '̃']),
    ('Ú', ['U', '́']), ('Ù', ['U', '̀']), ('Û', ['U', '̂']),
    ('Ü', ['U', '̈']),
    ('Ý', ['Y', '́']), ('Ñ', ['N', '̃']), ('Ç', ['C', '̧']) ]

/-- One character's Unicode decomposition; the identity on ASCII (real NFD
and NFKD are also the identity there). -/
def decomp (c : Char) : List Char :=
  if c.toNat ≤ 127 then [c] else ((decompTable.lookup c).getD [c])

/-- Combining diacritical marks: the U+0300..U+036F block matched by
`/[̀-ͯ]/` in `toSlug`; identical, for every mark the
decomposition table produces, to the `\p{Diacritic}` class matched in the
expand script's `latinize`. -/
def isCombiningMark (c : Char) : Bool := 0x300 ≤ c.toNat && c.toNat ≤ 0x36F

/-- Decompose and drop combining marks: the common model of
`normalize("NFKD").replace(/[̀-ͯ]/g, "")` (clean-teams.js line 16)
and `normalize("NFD").replace(/\p{Diacritic}+/gu, "")` (expand script
`latinize`, line 137); on the characters of `decompTable` and on ASCII the
two are identical. -/
def latinizeL (l : List Char) : List Char :=
  (l.flatMap decomp).filter (fun c => !(isCombiningMark c))

/-- Expand script line 137: `latinize`. -/
def latinize (s : String) : String := ⟨latinizeL s.data⟩

/-- Model of `toLowerCase` on ASCII (code points 65-90 are the capitals). -/
def jsLower (c : Char) : Char :=
  if 65 ≤ c.toNat ∧ c.toNat ≤ 90 then Char.ofNat (c.toNat + 32) else c

/-- Lowercase ASCII letters and digits: the `[a-z0-9]` regex class
(code points 97-122 and 48-57). -/
def isLowAln (c : Char) : Bool :=
  (97 ≤ c.toNat && c.toNat ≤ 122) || (48 ≤ c.toNat && c.toNat ≤ 57)

/-- Shared worker for run-collapsing regex replaces: every maximal run of
characters satisfying `p` becomes a single hyphen; the flag records being
inside a run. -/
def collapseGo (p : Char → Bool) : List Char → Bool → List Char
  | [], _ => []
  | c :: t, inRun =>
    if p c then
      if inRun then collapseGo p t true else '-' :: collapseGo p t true
    else c :: collapseGo p t false

/-- `replace(/[^a-z0-9]+/g, "-")`. -/
def collapseNA (l : List Char) : List Char :=
  collapseGo (fun c => !(isLowAln c)) l false

/-- The hyphen-run collapse of expand-script lines 145 and 150: every run
of hyphens becomes a single hyphen. -/
def collapseHy (l : List Char) : List Char :=
  collapseGo (fun c => c = '-') l false

/-- `replace(/^-+|-+$/g, "")`: drop the leading and the trailing run of
hyphens (clean-teams.js line 20). -/
def trimHyL (l : List Char) : List Char :=
  ((l.dropWhile (fun c => c = '-')).reverse.dropWhile (fun c => c = '-')).reverse

/-- `replace(/^-|-$/g, "")`: with `/g` but no `/m`, `^-` matches only at
index 0 and `-$` only at the last index, so exactly one hyphen is removed
from each end (expand script lines 146 and 150). -/
def dropOneEdge (l : List Char) : List Char :=
  let l1 := if l.head? = some '-' then l.tail else l
  (if l1.reverse.head? = some '-' then l1.reverse.tail else l1.reverse).reverse

/-- clean-teams.js lines 14-21: `toSlug` — NFKD minus combining marks,
lowercase, collapse non-alphanumeric runs to hyphens, strip edge hyphen
runs. -/
def toSlug (name : String) : String :=
  ⟨trimHyL (collapseNA ((latinizeL name.data).map jsLower))⟩

/-- Expand script line 149: the noise-word stoplist. -/
def stoplist : List String :=
  ["esports", "esport", "gaming", "team", "club", "gc", "valorant"]

/-- Split a character list on hyphens, keeping empty components. -/
def splitHy : List Char → List (List Char)
  | [] => [[]]
  | '-' :: t => [] :: splitHy t
  | c :: t =>
    match splitHy t with
    | h :: r => (c :: h) :: r
    | [] => [[c]]

/-- Rejoin components with single hyphens. -/
def joinHy : List (List Char) → List Char
  | [] => []
  | [x] => x
  | x :: r => x ++ '-' :: joinHy r

/-- `replace(/\b(esports|esport|gaming|team|club|gc|valorant)\b/g, "")`.
On the `[a-z0-9-]` strings this is applied to, `\b` boundaries fall
exactly at hyphens and string edges, so a match is a whole hyphen-delimited
component equal to a stop word; each such component is emptied. -/
def removeNoise (l : List Char) : List Char :=
  joinHy ((splitHy l).map (fun tok => if (⟨tok⟩ : String) ∈ stoplist then [] else tok))

/-- Expand script lines 153-161: the `specials` override table. -/
def specials : List (String × String) :=
  [ ("kru", "kru"), ("leviatan", "leviatan"), ("g2", "g2-esports"),
    ("100-thieves", "100-thieves"), ("team-liquid", "team-liquid"),
    ("fnatic", "fnatic"), ("cloud9", "cloud9") ]

/-- The JS expression `specials[n]` is a property access on an object
literal, so when `n` is not an own key it walks the prototype chain up to
`Object.prototype`.  The cleaned `n` always lies in the `[a-z0-9-]`
alphabet, and the only `Object.prototype` property name in that alphabet
is `constructor` (the others — `hasOwnProperty`, `isPrototypeOf`,
`propertyIsEnumerable`, `toLocaleString`, `toString`, `valueOf` and the
double-underscore accessors — contain capitals or underscores the
pipeline cannot emit).  `objectCtorVal` stands for the inherited value
`Object.prototype.constructor`, the built-in `Object` function: it is
truthy, so `specials[n] || n` returns it.  The program only ever uses the
returned value as a `Map` key (the function has one stable identity
across evaluations) and under string coercion in template literals, so
the function value is represented here by its ECMAScript string form,
which no slug-alphabet string can collide with. -/
def objectCtorVal : String := "function Object() \x7b [native code] \x7d"

/-- The lookup `specials[n] || n` of expand script line 162: an own key
of the override table wins; otherwise the property access falls through
to the prototype chain, where `n = "constructor"` finds the truthy
`Object.prototype.constructor` (see `objectCtorVal`); only when both
miss is `n` itself returned. -/
def specialsGet (n : String) : String :=
  match specials.lookup n with
  | some v => v
  | none => if n = "constructor" then objectCtorVal else n

/-- Expand script lines 139-163: `slugify` — latinize, lowercase,
`&`→`and`, strip apostrophes, collapse non-alphanumerics, collapse hyphen
runs, drop one edge hyphen each side, remove stoplist words, collapse and
trim again, then the own-then-inherited lookup `specials[n] || n`
(`specialsGet`). -/
def slugify (name : String) : String :=
  let l0 := (latinizeL name.data).map jsLower
  let l1 := l0.flatMap (fun c => if c = '&' then ['a', 'n', 'd'] else [c])
  let l2 := l1.filter (fun c => !(c = '\'' || c = '’'))
  let l3 := dropOneEdge (collapseHy (collapseNA l2))
  let l4 := dropOneEdge (collapseHy (removeNoise l3))
  specialsGet ⟨l4⟩

/-- Node `path.posix.dirname`. -/
def dirname (p : String) : String :=
  let cs := p.data
  let noTrail := (cs.reverse.dropWhile (fun c => c = '/')).reverse
  if noTrail = [] then (if cs = [] then "." else "/")
  else if noTrail.contains '/' then
    let pre := (noTrail.reverse.dropWhile (fun c => c ≠ '/')).reverse
    let pre2 := match pre.reverse with | '/' :: t => t.reverse | _ => pre
    if pre2 = [] then "/" else ⟨pre2⟩
  else "."

/-- Node `path.posix.basename p`: the last path component, ignoring
trailing slashes. -/
def basenameCore (p : String) : String :=
  let noTrail := (p.data.reverse.dropWhile (fun c => c = '/')).reverse
  ⟨(noTrail.reverse.takeWhile (fun c => c ≠ '/')).reverse⟩

/-- Node `path.posix.basename p ext`: the extension is stripped only when
it is a proper suffix of the basename (a basename equal to the extension is
kept whole). -/
def basenameExt (p ext : String) : String :=
  let b := basenameCore p
  if b ≠ ext ∧ ext.data.isSuffixOf b.data then
    ⟨b.data.take (b.data.length - ext.data.length)⟩
  else b

/-- The stem cleanup of clean-teams.js line 26: drop one leading digit run
followed by a hyphen, if present. -/
def dropDigitsDash (s : String) : String :=
  let cs := s.data
  let ds := cs.takeWhile isDigitChar
  if ds ≠ [] ∧ (cs.drop ds.length).head? = some '-' then
    ⟨cs.drop (ds.length + 1)⟩
  else s

/-- clean-teams.js lines 23-28: `cleanLogoPath`. -/
def cleanLogoPath (p : String) : String :=
  dirname p ++ "/" ++ dropDigitsDash (basenameExt p ".png") ++ ".png"

/-- clean-teams.js lines 30-32: `slugFromLogo`. -/
def slugFromLogo (p : String) : String :=
  basenameExt (cleanLogoPath p) ".png"

/-- `[...new Set(arr)]` (clean-teams.js lines 34-36): first occurrences,
in order. -/
def dedupGo {α : Type} [DecidableEq α] : List α → List α → List α
  | [], _ => []
  | x :: t, seen => if x ∈ seen then dedupGo t seen else x :: dedupGo t (x :: seen)

/-- clean-teams.js `uniq`. -/
def uniq {α : Type} [DecidableEq α] (l : List α) : List α := dedupGo l []

/-- ICU-root model of `a.localeCompare b` for ASCII strings: primary pass
on the lowercased code points, tertiary tie-break on case (lowercase sorts
first).  On slug strings this is exactly code-point order. -/
def charCmp (a b : Char) : Ordering := compare a.toNat b.toNat

/-- Code-point lexicographic comparison of character lists. -/
def lexCmp : List Char → List Char → Ordering
  | [], [] => .eq
  | [], _ :: _ => .lt
  | _ :: _, [] => .gt
  | a :: as, b :: bs =>
    match charCmp a b with
    | .eq => lexCmp as bs
    | o => o

/-- Case weight of a character for the tertiary pass: lowercase (and
everything that is not an ASCII capital) before uppercase. -/
def caseMark (c : Char) : Char := if 65 ≤ c.toNat ∧ c.toNat ≤ 90 then '1' else '0'

/-- The `localeCompare` model. -/
def locCmp (a b : String) : Ordering :=
  match lexCmp (a.data.map jsLower) (b.data.map jsLower) with
  | .eq => lexCmp (a.data.map caseMark) (b.data.map caseMark)
  | o => o

/-- `a.localeCompare(b) <= 0` as a Boolean sort comparator. -/
def locLe (a b : String) : Bool := !(locCmp a b == Ordering.gt)

/-- Stable insertion: `x` goes before the first element it compares
less-or-equal to. -/
def insertSorted {α : Type} (le : α → α → Bool) (x : α) : List α → List α
  | [] => [x]
  | y :: t => if le x y then x :: y :: t else y :: insertSorted le x t

/-- Stable sort (the model of ES2019 `Array.prototype.sort`). -/
def sortLe {α : Type} (le : α → α → Bool) (l : List α) : List α :=
  l.foldr (insertSorted le) []

/-- A team object of teamdb/teams.json.  `slug` is carried because the
expand script's `buildSlugIndex` reads `t.slug` as a fallback; objects
written by either script have no slug property, modelled as `""` (the two
are indistinguishable to the source, which only tests the field for
falsiness). -/
structure Team where
  logo : String := ""
  names : List String := []
  slug : String := ""
deriving DecidableEq, Repr

/-- A region-list entry (`{slug, names, logo}`). -/
structure RegionItem where
  slug : String := ""
  names : List String := []
  logo : String := ""
deriving DecidableEq, Repr

/-- Insertion-ordered map lookup (`Map.prototype.get`). -/
def getA {α : Type} : List (String × α) → String → Option α
  | [], _ => none
  | (k, v) :: t, q => if k = q then some v else getA t q

/-- Insertion-ordered map update (`Map.prototype.set`): overwrite in place,
else append. -/
def setA {α : Type} : List (String × α) → String → α → List (String × α)
  | [], k, v => [(k, v)]
  | (k', v') :: t, k, v =>
    if k' = k then (k, v) :: t else (k', v') :: setA t k v

/-- clean-teams.js line 42: `(t.names ?? []).map(stripRankPrefix).filter(Boolean)`. -/
def stripNames (ns : List String) : List String :=
  (ns.map stripRankPrefix).filter (fun n => n ≠ "")

/-- clean-teams.js lines 43-44: the slug computed for one team in the
cleanup loop — `toSlug(primary || slugFromLogo(t.logo || ""))` with
`primary = names[0] ?? ""` over the stripped, non-empty names. -/
def cleanSlugOf (t : Team) : String :=
  let primary := (stripNames t.names).headD ""
  toSlug (if primary = "" then slugFromLogo t.logo else primary)

/-- clean-teams.js lines 41-51: the body of the `for` loop of
`cleanTeamsArray`, one team folded into the slug-keyed accumulator. -/
def cleanStep (m : List (String × Team)) (t : Team) : List (String × Team) :=
  let ns := stripNames t.names
  let slug := cleanSlugOf t
  let old := (getA m slug).getD { logo := "logos/" ++ slug ++ ".png", names := [] }
  setA m slug { logo := "logos/" ++ slug ++ ".png", names := uniq (old.names ++ ns) }

/-- Sort key-entry pairs by key with `localeCompare`
(clean-teams.js lines 54-55, expand script lines 306-307). -/
def sortPairs {α : Type} (m : List (String × α)) : List (String × α) :=
  sortLe (fun a b => locLe a.1 b.1) m

/-- clean-teams.js lines 38-57: `cleanTeamsArray`, keyed form
(the `Map` entries after sorting, before the values are projected out). -/
def cleanTeamsKeyed (ts : List Team) : List (String × Team) :=
  sortPairs (ts.foldl cleanStep [])

/-- clean-teams.js lines 38-57: `cleanTeamsArray`. -/
def cleanTeamsArray (ts : List Team) : List Team :=
  (cleanTeamsKeyed ts).map Prod.snd

/-- clean-teams.js line 68: `(item.names && item.names[0]) || item.slug || ""`. -/
def regionBase (i : RegionItem) : String :=
  let n0 := i.names.headD ""
  if n0 ≠ "" then n0 else i.slug

/-- clean-teams.js lines 67-78: the per-region loop of `cleanRegions`,
with the `seen` slug set threaded. -/
def cleanRegionGo : List RegionItem → List String → List RegionItem
  | [], _ => []
  | i :: t, seen =>
    let name := stripRankPrefix (regionBase i)
    let slug := toSlug name
    if slug ∈ seen then cleanRegionGo t seen
    else { slug := slug, names := [name], logo := "logos/" ++ slug ++ ".png" } ::
      cleanRegionGo t (slug :: seen)

/-- One region's cleaned list. -/
def cleanRegionList (l : List RegionItem) : List RegionItem := cleanRegionGo l []

/-- clean-teams.js lines 59-83: `cleanRegions` on a regions object
(the non-object guard of line 60 returns the input unchanged and is outside
this model, which takes the object as an association list). -/
def cleanRegions (rs : List (String × List RegionItem)) : List (String × List RegionItem) :=
  rs.map (fun p => (p.1, cleanRegionList p.2))

/-- The entry the region cleanup emits for an input item it keeps
(clean-teams.js lines 72-76, written out). -/
def regionEntryOf (i : RegionItem) : RegionItem :=
  let n := stripRankPrefix (regionBase i)
  { slug := toSlug n, names := [n], logo := "logos/" ++ toSlug n ++ ".png" }

/-- `needle` is a prefix of `hay`. -/
def startsWithL : List Char → List Char → Bool
  | [], _ => true
  | _ :: _, [] => false
  | a :: t, b :: u => a = b && startsWithL t u

/-- Index of the leftmost occurrence of `needle` in `hay`. -/
def substrIdx (needle : List Char) : List Char → Option Nat
  | [] => if needle = [] then some 0 else none
  | c :: t =>
    if startsWithL needle (c :: t) then some 0
    else (substrIdx needle t).map (· + 1)

/-- Expand script line 245: `t.logo?.match(/logos\/(.+?)\.(?:png|webp|jpg)$/)?.[1]`.
The end anchor fixes the final dot-extension, so the capture is everything
strictly between the leftmost `logos/` and that final dot; the match needs
at least one captured character. -/
def logoKeyCapture (s : String) : Option String :=
  let cs := s.data
  let extLen :=
    if ".png".data.isSuffixOf cs then some 4
    else if ".webp".data.isSuffixOf cs then some 5
    else if ".jpg".data.isSuffixOf cs then some 4
    else none
  match extLen with
  | none => none
  | some el =>
    let dotPos := cs.length - el
    match substrIdx "logos/".data cs with
    | some j =>
      if j + 6 < dotPos then some ⟨(cs.drop (j + 6)).take (dotPos - (j + 6))⟩
      else none
    | none => none

/-- Expand script line 245: the index key of an existing team record —
the logo capture, else the whole (truthy) logo, else a truthy `slug`
field, else `slugify` of the first name. -/
def teamKey (t : Team) : String :=
  match logoKeyCapture t.logo with
  | some s => s
  | none =>
    if t.logo ≠ "" then t.logo
    else if t.slug ≠ "" then t.slug
    else slugify (t.names.headD "")

/-- Expand script lines 242-249: `buildSlugIndex` — first record with a
given key wins, later records with the same key are dropped. -/
def buildSlugIndex (ts : List Team) : List (String × Team) :=
  ts.foldl (fun m t => if (getA m (teamKey t)).isSome then m else setA m (teamKey t) t) []

/-- Sort a names array with `localeCompare` (expand script line 257). -/
def sortNames (ns : List String) : List String := sortLe locLe ns

/-- Expand script lines 251-269: `mergeTeam` — no rank stripping, no
emptiness check: the raw name is slugified and stored; on a hit the name is
added to the set of names (then sorted) and the logo is recomputed, on a
miss a fresh record is inserted.  Returns the updated index and the
returned record. -/
def mergeTeam (bySlug : List (String × Team)) (name : String) :
    List (String × Team) × Team :=
  let slug := slugify name
  match getA bySlug slug with
  | some ex =>
    let ex' : Team :=
      { ex with
        names := sortNames (uniq (ex.names ++ [name])),
        logo := "logos/" ++ slug ++ ".png" }
    (setA bySlug slug ex', ex')
  | none =>
    let e : Team := { logo := "logos/" ++ slug ++ ".png", names := [name] }
    (setA bySlug slug e, e)

/-- Expand script lines 286-295: build one region's entry list, threading
the shared slug index through `mergeTeam`. -/
def mkRegionGo (idx : List (String × Team)) :
    List String → List (String × Team) × List RegionItem
  | [] => (idx, [])
  | nm :: t =>
    let r := mergeTeam idx nm
    let s := slugify nm
    let rest := mkRegionGo r.1 t
    (rest.1, { slug := s, names := r.2.names, logo := "logos/" ++ s ++ ".png" } :: rest.2)

/-- The mutable state of one expand run: the shared slug index and the
regions object. -/
structure ExpandState where
  bySlug : List (String × Team) := []
  regions : List (String × List RegionItem) := []
deriving DecidableEq, Repr

/-- Expand script lines 282-303: one iteration of the region loop.  The
fetch outcome is the oracle: `some names` is a successful
`getTop30`, `none` is a thrown fetch/extract error, caught at the
per-region boundary — the existing region entry is kept if present
(any array, even empty, is truthy), else set to `[]`. -/
def stepRegion (s : ExpandState) (code : String) (outcome : Option (List String)) :
    ExpandState :=
  match outcome with
  | some names =>
    let r := mkRegionGo s.bySlug names
    { bySlug := r.1, regions := setA s.regions code r.2 }
  | none =>
    match getA s.regions code with
    | some _ => s
    | none => { s with regions := setA s.regions code [] }

/-- The whole region loop over configured regions with their fetch
outcomes. -/
def expandLoop (regs : List (String × Option (List String))) (s : ExpandState) :
    ExpandState :=
  regs.foldl (fun s p => stepRegion s p.1 p.2) s

/-- Expand script lines 306-311: rebuild the flat teams array from the
index — sorted by slug, logo regenerated from the key, `names` kept. -/
def rebuildTeams (m : List (String × Team)) : List Team :=
  (sortPairs m).map (fun p => { logo := "logos/" ++ p.1 ++ ".png", names := p.2.names })

/-- Specification helper: the first record of the list whose index key is
`k` (what "first wins" means for `buildSlugIndex`). -/
def firstWithKey (k : String) : List Team → Option Team
  | [] => none
  | t :: ts => if teamKey t = k then some t else firstWithKey k ts

/-- Plain name characters on which the two slug pipelines coincide:
ASCII letters (65-90, 97-122), digits (48-57), space (32) and
hyphen (45). -/
def plainChar (c : Char) : Bool :=
  (65 ≤ c.toNat && c.toNat ≤ 90) || (97 ≤ c.toNat && c.toNat ≤ 122) ||
    (48 ≤ c.toNat && c.toNat ≤ 57) || c.toNat = 32 || c.toNat = 45

/-- No two adjacent hyphens (what the run-collapsing replaces
guarantee). -/
def NoTwo (l : List Char) : Prop :=
  l.Chain' fun a b => ¬(a = '-' ∧ b = '-')

/-- Invariant of one accumulator pair produced by the cleanup fold when
every input name survives stripping and is a `stripRankPrefix` fixed
point: the entry's names are non-empty, stripped-fixed and duplicate-free,
the first name slugs back to the key, and logo and slug field are
canonical. -/
def GoodPair (p : String × Team) : Prop :=
  p.2.names ≠ [] ∧
  (∀ n ∈ p.2.names, stripRankPrefix n = n ∧ n ≠ "") ∧
  toSlug (p.2.names.headD "") = p.1 ∧
  p.2.names.Nodup ∧
  p.2.logo = "logos/" ++ p.1 ++ ".png" ∧
  p.2.slug = ""

/-- A string in the image of `toSlug` (hence over the `[a-z0-9-]`
alphabet). -/
def isSlugStr (k : String) : Prop := ∃ s, toSlug s = k

/-! Lemmas about the association-list primitives. -/

theorem getA_setA_self {α : Type} (m : List (String × α)) (k : String) (v : α) :
    getA (setA m k v) k = some v := by
  induction m with
  | nil => simp [setA, getA]
  | cons p t ih =>
    by_cases h : p.1 = k
    · cases p; simp_all [setA, getA]
    · cases p; simp_all [setA, getA]

theorem getA_setA_ne {α : Type} (m : List (String × α)) (k k' : String) (v : α)
    (h : k' ≠ k) : getA (setA m k v) k' = getA m k' := by
  induction m with
  | nil => simp [setA, getA, Ne.symm h]
  | cons p t ih =>
    cases p with
    | mk k₀ v₀ =>
      by_cases h₀ : k₀ = k
      · subst h₀; simp [setA, getA, Ne.symm h]
      · simp only [setA, if_neg h₀, getA]
        by_cases h₁ : k₀ = k'
        · simp [h₁]
        · simp [h₁, ih]

theorem getA_mem {α : Type} {m : List (String × α)} {k : String} {v : α}
    (h : getA m k = some v) : (k, v) ∈ m := by
  induction m with
  | nil => simp [getA] at h
  | cons p t ih =>
    cases p with
    | mk k₀ v₀ =>
      by_cases h₀ : k₀ = k
      · subst h₀
        have hv : v₀ = v := by simpa [getA] using h
        subst hv
        exact List.mem_cons_self _ _
      · simp only [getA, if_neg h₀] at h
        exact List.mem_cons_of_mem _ (ih h)

theorem getA_eq_none_iff {α : Type} (m : List (String × α)) (k : String) :
    getA m k = none ↔ k ∉ m.map Prod.fst := by
  induction m with
  | nil => simp [getA]
  | cons p t ih =>
    cases p with
    | mk k₀ v₀ =>
      by_cases h₀ : k₀ = k
      · subst h₀; simp [getA]
      · simp [getA, h₀, ih, Ne.symm h₀]

theorem mem_setA {α : Type} {m : List (String × α)} {k : String} {v : α} {p : String × α}
    (h : p ∈ setA m k v) : p = (k, v) ∨ p ∈ m := by
  induction m with
  | nil => simp [setA] at h; simp [h]
  | cons q t ih =>
    cases q with
    | mk k₀ v₀ =>
      by_cases h₀ : k₀ = k
      · subst h₀
        simp only [setA, if_pos rfl] at h
        rcases List.mem_cons.mp h with h | h
        · exact Or.inl h
        · exact Or.inr (List.mem_cons_of_mem _ h)
      · simp only [setA, if_neg h₀] at h
        rcases List.mem_cons.mp h with h | h
        · exact Or.inr (h ▸ List.mem_cons_self _ _)
        · rcases ih h with h | h
          · exact Or.inl h
          · exact Or.inr (List.mem_cons_of_mem _ h)

theorem keys_setA_nodup {α : Type} {m : List (String × α)} (k : String) (v : α)
    (h : (m.map Prod.fst).Nodup) : ((setA m k v).map Prod.fst).Nodup := by
  induction m with
  | nil => simp [setA]
  | cons q t ih =>
    cases q with
    | mk k₀ v₀ =>
      by_cases h₀ : k₀ = k
      · subst h₀
        have hs : setA ((k₀, v₀) :: t) k₀ v = (k₀, v) :: t := by simp [setA]
        rw [hs, List.map_cons]
        simpa using h
      · simp only [setA, if_neg h₀, List.map_cons, List.nodup_cons] at h ⊢
        refine ⟨fun hc => ?_, ih h.2⟩
        have hq : ∀ q' ∈ setA t k v, q' = (k, v) ∨ q' ∈ t := fun _ hq => mem_setA hq
        rcases List.mem_map.mp hc with ⟨q', hq', hfst⟩
        rcases hq q' hq' with rfl | hmem
        · exact h₀ hfst.symm
        · exact h.1 (hfst ▸ List.mem_map_of_mem Prod.fst hmem)

theorem setA_of_not_mem {α : Type} {m : List (String × α)} {k : String} (v : α)
    (h : k ∉ m.map Prod.fst) : setA m k v = m ++ [(k, v)] := by
  induction m with
  | nil => simp [setA]
  | cons q t ih =>
    cases q with
    | mk k₀ v₀ =>
      simp only [List.map_cons, List.mem_cons] at h
      push_neg at h
      simp [setA, Ne.symm h.1, ih h.2]

/-! Lemmas about `dedupGo` / `uniq`. -/

theorem mem_dedupGo {α : Type} [DecidableEq α] :
    ∀ (l seen : List α) (x : α), x ∈ dedupGo l seen ↔ x ∈ l ∧ x ∉ seen
  | [], seen, x => by simp [dedupGo]
  | a :: t, seen, x => by
    by_cases h : a ∈ seen
    · rw [dedupGo, if_pos h, mem_dedupGo t seen x]
      constructor
      · exact fun ⟨h1, h2⟩ => ⟨List.mem_cons_of_mem _ h1, h2⟩
      · rintro ⟨h1, h2⟩
        rcases List.mem_cons.mp h1 with rfl | h1
        · exact absurd h h2
        · exact ⟨h1, h2⟩
    · rw [dedupGo, if_neg h]
      constructor
      · intro hx
        rcases List.mem_cons.mp hx with rfl | hx
        · exact ⟨List.mem_cons_self _ _, h⟩
        · have hm := (mem_dedupGo t (a :: seen) x).mp hx
          exact ⟨List.mem_cons_of_mem _ hm.1,
            fun hc => hm.2 (List.mem_cons_of_mem _ hc)⟩
      · rintro ⟨h1, h2⟩
        by_cases hax : x = a
        · exact hax ▸ List.mem_cons_self _ _
        · rcases List.mem_cons.mp h1 with rfl | h1
          · exact absurd rfl hax
          · refine List.mem_cons_of_mem _ ((mem_dedupGo t (a :: seen) x).mpr ⟨h1, ?_⟩)
            intro hc
            rcases List.mem_cons.mp hc with rfl | hc
            · exact hax rfl
            · exact h2 hc

theorem nodup_dedupGo {α : Type} [DecidableEq α] :
    ∀ (l seen : List α), (dedupGo l seen).Nodup
  | [], _ => by simp [dedupGo]
  | a :: t, seen => by
    by_cases h : a ∈ seen
    · rw [dedupGo, if_pos h]; exact nodup_dedupGo t seen
    · rw [dedupGo, if_neg h]
      refine List.nodup_cons.mpr ⟨fun hc => ?_, nodup_dedupGo t (a :: seen)⟩
      exact ((mem_dedupGo t (a :: seen) a).mp hc).2 (List.mem_cons_self _ _)

theorem dedupGo_eq_self {α : Type} [DecidableEq α] :
    ∀ {l seen : List α}, l.Nodup → (∀ x ∈ l, x ∉ seen) → dedupGo l seen = l
  | [], _, _, _ => rfl
  | a :: t, seen, hn, hs => by
    rw [dedupGo, if_neg (hs a (List.mem_cons_self _ _))]
    refine congrArg _ (dedupGo_eq_self (List.nodup_cons.mp hn).2 ?_)
    intro x hx
    simp only [List.mem_cons]
    push_neg
    exact ⟨fun hxa => (List.nodup_cons.mp hn).1 (hxa ▸ hx), hs x (List.mem_cons_of_mem _ hx)⟩

theorem uniq_nodup {α : Type} [DecidableEq α] (l : List α) : (uniq l).Nodup :=
  nodup_dedupGo l []

theorem mem_uniq {α : Type} [DecidableEq α] (l : List α) (x : α) :
    x ∈ uniq l ↔ x ∈ l := by simp [uniq, mem_dedupGo]

theorem uniq_eq_self {α : Type} [DecidableEq α] {l : List α} (h : l.Nodup) :
    uniq l = l := dedupGo_eq_self h (by simp)

theorem uniq_cons_head {α : Type} [DecidableEq α] (a : α) (t : List α) :
    uniq (a :: t) = a :: dedupGo t [a] := by
  simp [uniq, dedupGo]

/-! Lemmas about the stable insertion sort. -/

theorem insertSorted_perm {α : Type} (le : α → α → Bool) (x : α) :
    ∀ l : List α, (insertSorted le x l).Perm (x :: l)
  | [] => List.Perm.refl _
  | y :: t => by
    by_cases h : le x y
    · rw [insertSorted, if_pos h]
    · rw [insertSorted, if_neg h]
      exact ((insertSorted_perm le x t).cons y).trans (List.Perm.swap x y t)

theorem sortLe_perm {α : Type} (le : α → α → Bool) :
    ∀ l : List α, (sortLe le l).Perm l
  | [] => List.Perm.refl _
  | a :: t => by
    rw [sortLe, List.foldr_cons]
    exact (insertSorted_perm le a _).trans ((sortLe_perm le t).cons a)

theorem mem_insertSorted {α : Type} (le : α → α → Bool) (x : α) (l : List α) (z : α) :
    z ∈ insertSorted le x l ↔ z = x ∨ z ∈ l := by
  rw [(insertSorted_perm le x l).mem_iff]; simp

theorem mem_sortLe {α : Type} (le : α → α → Bool) (l : List α) (z : α) :
    z ∈ sortLe le l ↔ z ∈ l := (sortLe_perm le l).mem_iff

theorem insertSorted_pairwise {α : Type} {le : α → α → Bool}
    (htot : ∀ a b, le a b = true ∨ le b a = true)
    (htr : ∀ a b c, le a b = true → le b c = true → le a c = true) (x : α) :
    ∀ {l : List α}, l.Pairwise (fun a b => le a b = true) →
      (insertSorted le x l).Pairwise (fun a b => le a b = true)
  | [], _ => List.pairwise_singleton _ _
  | y :: t, hp => by
    rcases List.pairwise_cons.mp hp with ⟨hyt, hpt⟩
    by_cases h : le x y
    · rw [insertSorted, if_pos h]
      refine List.pairwise_cons.mpr ⟨?_, hp⟩
      intro z hz
      rcases List.mem_cons.mp hz with rfl | hz
      · exact h
      · exact htr x y z h (hyt z hz)
    · rw [insertSorted, if_neg h]
      refine List.pairwise_cons.mpr ⟨?_, insertSorted_pairwise htot htr x hpt⟩
      intro z hz
      rcases (mem_insertSorted le x t z).mp hz with heq | hz
      · rw [heq]
        rcases htot x y with h' | h'
        · exact absurd h' (by simpa using h)
        · exact h'
      · exact hyt z hz

theorem sortLe_pairwise {α : Type} {le : α → α → Bool}
    (htot : ∀ a b, le a b = true ∨ le b a = true)
    (htr : ∀ a b c, le a b = true → le b c = true → le a c = true) :
    ∀ l : List α, (sortLe le l).Pairwise (fun a b => le a b = true)
  | [] => List.Pairwise.nil
  | a :: t => by
    rw [sortLe, List.foldr_cons]
    exact insertSorted_pairwise htot htr a (sortLe_pairwise htot htr t)

theorem sortLe_eq_self {α : Type} {le : α → α → Bool} :
    ∀ {l : List α}, l.Pairwise (fun a b => le a b = true) → sortLe le l = l
  | [], _ => rfl
  | a :: t, hp => by
    rw [sortLe, List.foldr_cons]
    have ht : sortLe le t = t := sortLe_eq_self (List.pairwise_cons.mp hp).2
    rw [show t.foldr (insertSorted le) [] = sortLe le t from rfl, ht]
    cases t with
    | nil => rfl
    | cons b u =>
      have hab : le a b = true :=
        (List.pairwise_cons.mp hp).1 b (List.mem_cons_self _ _)
      rw [insertSorted, if_pos hab]

/-! Lemmas about the `localeCompare` model. -/

theorem charCmp_eq_iff (a b : Char) : charCmp a b = .eq ↔ a = b := by
  unfold charCmp
  rw [Nat.compare_eq_eq]
  exact ⟨fun h => Char.ext (UInt32.ext h), fun h => h ▸ rfl⟩

theorem charCmp_lt_iff (a b : Char) : charCmp a b = .lt ↔ a.toNat < b.toNat :=
  Nat.compare_eq_lt

theorem charCmp_gt_iff (a b : Char) : charCmp a b = .gt ↔ b.toNat < a.toNat :=
  Nat.compare_eq_gt

theorem lexCmp_eq_iff : ∀ l₁ l₂ : List Char, lexCmp l₁ l₂ = .eq ↔ l₁ = l₂
  | [], [] => by simp [lexCmp]
  | [], _ :: _ => by simp [lexCmp]
  | _ :: _, [] => by simp [lexCmp]
  | a :: as, b :: bs => by
    rw [lexCmp]
    rcases h : charCmp a b with _ | _ | _
    · simp only [List.cons.injEq]
      have : a ≠ b := fun hc => by
        rw [(charCmp_eq_iff a b).mpr hc] at h; cases h
      simp [this]
    · have hab : a = b := (charCmp_eq_iff a b).mp h
      subst hab
      rw [lexCmp_eq_iff as bs]
      simp
    · simp only [List.cons.injEq]
      have : a ≠ b := fun hc => by
        rw [(charCmp_eq_iff a b).mpr hc] at h; cases h
      simp [this]

theorem lexCmp_swap : ∀ l₁ l₂ : List Char, lexCmp l₂ l₁ = (lexCmp l₁ l₂).swap
  | [], [] => by rfl
  | [], _ :: _ => by simp [lexCmp, Ordering.swap]
  | _ :: _, [] => by simp [lexCmp, Ordering.swap]
  | a :: as, b :: bs => by
    rw [lexCmp, lexCmp]
    rcases h : charCmp a b with _ | _ | _
    · have : charCmp b a = .gt := by
        rw [charCmp_gt_iff]; exact (charCmp_lt_iff a b).mp h
      simp [this, Ordering.swap]
    · have hab : a = b := (charCmp_eq_iff a b).mp h
      subst hab
      rw [(charCmp_eq_iff a a).mpr rfl]
      exact lexCmp_swap as bs
    · have : charCmp b a = .lt := by
        rw [charCmp_lt_iff]; exact (charCmp_gt_iff a b).mp h
      simp [this, Ordering.swap]

theorem lexCmp_lt_trans :
    ∀ {l₁ l₂ l₃ : List Char}, lexCmp l₁ l₂ = .lt → lexCmp l₂ l₃ = .lt →
      lexCmp l₁ l₃ = .lt
  | [], [], _, h₁, _ => by simp [lexCmp] at h₁
  | [], _ :: _, [], _, h₂ => by simp [lexCmp] at h₂
  | [], _ :: _, _ :: _, _, _ => by simp [lexCmp]
  | _ :: _, [], _, h₁, _ => by simp [lexCmp] at h₁
  | _ :: _, _ :: _, [], _, h₂ => by simp [lexCmp] at h₂
  | a :: as, b :: bs, c :: cs, h₁, h₂ => by
    rw [lexCmp] at h₁ h₂ ⊢
    rcases hab : charCmp a b with _ | _ | _ <;> rw [hab] at h₁ <;>
      rcases hbc : charCmp b c with _ | _ | _ <;> rw [hbc] at h₂
    · have : charCmp a c = .lt := by
        rw [charCmp_lt_iff]
        exact Nat.lt_trans ((charCmp_lt_iff a b).mp hab) ((charCmp_lt_iff b c).mp hbc)
      rw [this]
    · have hbc' : b = c := (charCmp_eq_iff b c).mp hbc
      rw [show charCmp a c = .lt from hbc' ▸ hab]
    · cases h₂
    · have hab' : a = b := (charCmp_eq_iff a b).mp hab
      rw [show charCmp a c = .lt from hab' ▸ hbc]
    · have hab' : a = b := (charCmp_eq_iff a b).mp hab
      have hbc' : b = c := (charCmp_eq_iff b c).mp hbc
      rw [show charCmp a c = .eq from by
        rw [charCmp_eq_iff]; exact hab'.trans hbc']
      exact lexCmp_lt_trans h₁ h₂
    · cases h₂
    · cases h₁
    · cases h₁
    · cases h₁

theorem locCmp_swap (a b : String) : locCmp b a = (locCmp a b).swap := by
  unfold locCmp
  rw [lexCmp_swap (a.data.map jsLower) (b.data.map jsLower)]
  rcases lexCmp (a.data.map jsLower) (b.data.map jsLower) with _ | _ | _
  · rfl
  · exact lexCmp_swap _ _
  · rfl

theorem locLe_eq_true_iff (a b : String) : locLe a b = true ↔ locCmp a b ≠ .gt := by
  unfold locLe
  rcases h : locCmp a b with _ | _ | _ <;> decide

theorem locLe_total (a b : String) : locLe a b = true ∨ locLe b a = true := by
  rw [locLe_eq_true_iff, locLe_eq_true_iff, locCmp_swap a b]
  rcases locCmp a b with _ | _ | _ <;> simp [Ordering.swap]

theorem locLe_trans (a b c : String) (h₁ : locLe a b = true) (h₂ : locLe b c = true) :
    locLe a c = true := by
  rw [locLe_eq_true_iff] at h₁ h₂ ⊢
  unfold locCmp at h₁ h₂ ⊢
  rcases hab : lexCmp (a.data.map jsLower) (b.data.map jsLower) with _ | _ | _ <;>
    rw [hab] at h₁ <;>
    rcases hbc : lexCmp (b.data.map jsLower) (c.data.map jsLower) with _ | _ | _ <;>
    rw [hbc] at h₂
  · rw [lexCmp_lt_trans hab hbc]; simp
  · have := (lexCmp_eq_iff _ _).mp hbc
    rw [this] at hab
    rw [hab]; simp
  · exact absurd rfl h₂
  · have := (lexCmp_eq_iff _ _).mp hab
    rw [← this] at hbc
    rw [hbc]; simp
  · have h1 := (lexCmp_eq_iff _ _).mp hab
    have h2 := (lexCmp_eq_iff _ _).mp hbc
    rw [show lexCmp (a.data.map jsLower) (c.data.map jsLower) = .eq from by
      rw [lexCmp_eq_iff]; exact h1.trans h2]
    intro hgt
    rcases ht₁ : lexCmp (a.data.map caseMark) (b.data.map caseMark) with _ | _ | _ <;>
      rw [ht₁] at h₁ <;>
      rcases ht₂ : lexCmp (b.data.map caseMark) (c.data.map caseMark) with _ | _ | _ <;>
      rw [ht₂] at h₂
    · exact absurd (lexCmp_lt_trans ht₁ ht₂ ▸ hgt : Ordering.lt = Ordering.gt) (by simp)
    · rw [(lexCmp_eq_iff _ _).mp ht₂] at ht₁
      rw [ht₁] at hgt; cases hgt
    · exact h₂ rfl
    · rw [← (lexCmp_eq_iff _ _).mp ht₁] at ht₂
      rw [ht₂] at hgt; cases hgt
    · rw [(lexCmp_eq_iff _ _).mp ht₂] at ht₁
      rw [ht₁] at hgt; cases hgt
    · exact h₂ rfl
    · exact h₁ rfl
    · exact h₁ rfl
    · exact h₁ rfl
  · exact absurd rfl h₂
  · exact absurd rfl h₁
  · exact absurd rfl h₁
  · exact absurd rfl h₁

/-- Totality of the pair comparator used by `sortPairs`. -/
theorem pairLe_total {α : Type} (a b : String × α) :
    (locLe a.1 b.1 = true) ∨ (locLe b.1 a.1 = true) := locLe_total a.1 b.1

/-! Unconditional invariants of the cleanup fold and of the expand-side
index operations: distinct keys, and logos kept in lockstep with keys. -/

theorem cleanFold_keys_nodup :
    ∀ (ts : List Team) (m : List (String × Team)),
      (m.map Prod.fst).Nodup → ((ts.foldl cleanStep m).map Prod.fst).Nodup
  | [], _, h => h
  | t :: ts, m, h => by
    rw [List.foldl_cons]
    exact cleanFold_keys_nodup ts _ (keys_setA_nodup _ _ h)

theorem cleanFold_logo :
    ∀ (ts : List Team) (m : List (String × Team)),
      (∀ p ∈ m, p.2.logo = "logos/" ++ p.1 ++ ".png") →
      ∀ p ∈ ts.foldl cleanStep m, p.2.logo = "logos/" ++ p.1 ++ ".png"
  | [], _, h => h
  | t :: ts, m, h => by
    rw [List.foldl_cons]
    refine cleanFold_logo ts _ ?_
    intro p hp
    rcases mem_setA hp with rfl | hp
    · rfl
    · exact h p hp

theorem cleanTeamsKeyed_keys_nodup (ts : List Team) :
    ((cleanTeamsKeyed ts).map Prod.fst).Nodup := by
  have hperm : (cleanTeamsKeyed ts).Perm (ts.foldl cleanStep []) :=
    sortLe_perm _ _
  exact ((hperm.map Prod.fst).symm).nodup (cleanFold_keys_nodup ts [] (by simp))

theorem cleanTeamsKeyed_logo (ts : List Team) :
    ∀ p ∈ cleanTeamsKeyed ts, p.2.logo = "logos/" ++ p.1 ++ ".png" := by
  intro p hp
  have hp' : p ∈ ts.foldl cleanStep [] := (sortLe_perm _ _).mem_iff.mp hp
  exact cleanFold_logo ts [] (by simp) p hp'

theorem mergeTeam_keys_nodup (m : List (String × Team)) (name : String)
    (hm : (m.map Prod.fst).Nodup) : (((mergeTeam m name).1).map Prod.fst).Nodup := by
  unfold mergeTeam
  rcases hg : getA m (slugify name) with _ | ex <;> simp only [hg] <;>
    exact keys_setA_nodup _ _ hm

theorem mkRegionGo_keys_nodup :
    ∀ (ns : List String) (idx : List (String × Team)),
      (idx.map Prod.fst).Nodup → (((mkRegionGo idx ns).1).map Prod.fst).Nodup
  | [], _, h => h
  | nm :: t, idx, h => by
    rw [mkRegionGo]
    exact mkRegionGo_keys_nodup t _ (mergeTeam_keys_nodup idx nm h)

theorem stepRegion_keys_nodup (s : ExpandState) (code : String)
    (oc : Option (List String)) (h : (s.bySlug.map Prod.fst).Nodup) :
    (((stepRegion s code oc).bySlug).map Prod.fst).Nodup := by
  unfold stepRegion
  rcases oc with _ | names
  · rcases getA s.regions code with _ | _ <;> exact h
  · exact mkRegionGo_keys_nodup names _ h

theorem expandLoop_keys_nodup :
    ∀ (regs : List (String × Option (List String))) (s : ExpandState),
      (s.bySlug.map Prod.fst).Nodup →
      (((expandLoop regs s).bySlug).map Prod.fst).Nodup
  | [], _, h => h
  | r :: regs, s, h => by
    rw [expandLoop, List.foldl_cons]
    exact expandLoop_keys_nodup regs _ (stepRegion_keys_nodup s r.1 r.2 h)

theorem buildSlugIndex_keys_nodup (ts : List Team) :
    ((buildSlugIndex ts).map Prod.fst).Nodup := by
  unfold buildSlugIndex
  suffices h : ∀ (l : List Team) (m : List (String × Team)), (m.map Prod.fst).Nodup →
      ((l.foldl (fun m t =>
        if (getA m (teamKey t)).isSome then m else setA m (teamKey t) t) m).map
          Prod.fst).Nodup by
    exact h ts [] (by simp)
  intro l
  induction l with
  | nil => exact fun m h => h
  | cons t ts ih =>
    intro m h
    rw [List.foldl_cons]
    by_cases hc : (getA m (teamKey t)).isSome
    · rw [if_pos hc]; exact ih m h
    · rw [if_neg hc]; exact ih _ (keys_setA_nodup _ _ h)

/-- `"logos/" ++ k ++ ".png"` determines `k`. -/
theorem logoOf_inj {a b : String}
    (h : "logos/" ++ a ++ ".png" = "logos/" ++ b ++ ".png") : a = b := by
  have h' := congrArg String.data h
  rw [String.data_append, String.data_append, String.data_append,
    String.data_append] at h'
  have h₂ := List.append_cancel_right h'
  have h₃ := List.append_cancel_left h₂
  cases a; cases b; exact congrArg String.mk h₃

/-- C4 auxiliary: a list of pairs with distinct keys has pairwise distinct
logo strings after the keyed logo rebuild. -/
theorem nodup_logo_of_keys {m : List (String × Team)}
    (h : (m.map Prod.fst).Nodup) :
    ((m.map (fun p => "logos/" ++ p.1 ++ ".png")).Nodup) := by
  have h2 : (m.map Prod.fst).map (fun k => "logos/" ++ k ++ ".png")
      = m.map (fun p => "logos/" ++ p.1 ++ ".png") := by
    rw [List.map_map]; rfl
  rw [← h2]
  exact h.map fun _ _ hk => logoOf_inj hk

/-- C4: after cleanup and after an expand run, no two entries of the teams
output share a slug: the keyed cleanup map and the final expand index have
pairwise-distinct slug keys, and the logo fields (the only place the slug
appears in a flat team record) are pairwise distinct in both teams
outputs. -/
theorem c4_slug_unique (ts db : List Team)
    (regs : List (String × Option (List String)))
    (rs : List (String × List RegionItem)) :
    ((cleanTeamsKeyed ts).map Prod.fst).Nodup ∧
    ((cleanTeamsArray ts).map Team.logo).Nodup ∧
    ((sortPairs (expandLoop regs
        { bySlug := buildSlugIndex db, regions := rs }).bySlug).map Prod.fst).Nodup ∧
    ((rebuildTeams (expandLoop regs
        { bySlug := buildSlugIndex db, regions := rs }).bySlug).map Team.logo).Nodup := by
  have hexp : (((expandLoop regs
      { bySlug := buildSlugIndex db, regions := rs }).bySlug).map Prod.fst).Nodup :=
    expandLoop_keys_nodup regs { bySlug := buildSlugIndex db, regions := rs }
      (buildSlugIndex_keys_nodup db)
  have hsorted : ((sortPairs (expandLoop regs
      { bySlug := buildSlugIndex db, regions := rs }).bySlug).map Prod.fst).Nodup :=
    (((sortLe_perm _ _).map Prod.fst).symm).nodup hexp
  refine ⟨cleanTeamsKeyed_keys_nodup ts, ?_, hsorted, ?_⟩
  · have h := cleanTeamsKeyed_keys_nodup ts
    have hlogo : (cleanTeamsArray ts).map Team.logo
        = (cleanTeamsKeyed ts).map (fun p => "logos/" ++ p.1 ++ ".png") := by
      unfold cleanTeamsArray
      rw [List.map_map]
      exact List.map_congr_left fun p hp => cleanTeamsKeyed_logo ts p hp
    rw [hlogo]
    exact nodup_logo_of_keys h
  · unfold rebuildTeams
    rw [List.map_map]
    exact nodup_logo_of_keys hsorted

/-! Region-cleanup lemmas. -/

theorem mem_cleanRegionGo_shape :
    ∀ (l : List RegionItem) (seen : List String) (e : RegionItem),
      e ∈ cleanRegionGo l seen → ∃ i ∈ l, e = regionEntryOf i
  | [], _, _, h => by simp [cleanRegionGo] at h
  | i :: t, seen, e, h => by
    rw [cleanRegionGo] at h
    by_cases hc : toSlug (stripRankPrefix (regionBase i)) ∈ seen
    · rw [if_pos hc] at h
      rcases mem_cleanRegionGo_shape t seen e h with ⟨j, hj, he⟩
      exact ⟨j, List.mem_cons_of_mem _ hj, he⟩
    · rw [if_neg hc] at h
      rcases List.mem_cons.mp h with rfl | h
      · exact ⟨i, List.mem_cons_self _ _, rfl⟩
      · rcases mem_cleanRegionGo_shape t _ e h with ⟨j, hj, he⟩
        exact ⟨j, List.mem_cons_of_mem _ hj, he⟩

theorem cleanRegionGo_slug_present :
    ∀ (l : List RegionItem) (seen : List String) (i : RegionItem), i ∈ l →
      toSlug (stripRankPrefix (regionBase i)) ∈ seen ∨
      ∃ e ∈ cleanRegionGo l seen, e.slug = toSlug (stripRankPrefix (regionBase i))
  | [], _, _, h => by simp at h
  | j :: t, seen, i, h => by
    rw [cleanRegionGo]
    by_cases hc : toSlug (stripRankPrefix (regionBase j)) ∈ seen
    · rw [if_pos hc]
      rcases List.mem_cons.mp h with rfl | h
      · exact Or.inl hc
      · exact cleanRegionGo_slug_present t seen i h
    · rw [if_neg hc]
      rcases List.mem_cons.mp h with rfl | h
      · exact Or.inr ⟨_, List.mem_cons_self _ _, rfl⟩
      · rcases cleanRegionGo_slug_present t
          (toSlug (stripRankPrefix (regionBase j)) :: seen) i h with hmem | ⟨e, he, hes⟩
        · rcases List.mem_cons.mp hmem with heq | hmem
          · refine Or.inr ⟨_, List.mem_cons_self _ _, heq.symm⟩
          · exact Or.inl hmem
        · exact Or.inr ⟨e, List.mem_cons_of_mem _ he, hes⟩

theorem cleanRegionGo_slugs_nodup :
    ∀ (l : List RegionItem) (seen : List String),
      ((cleanRegionGo l seen).map RegionItem.slug).Nodup ∧
      ∀ e ∈ cleanRegionGo l seen, e.slug ∉ seen
  | [], _ => by simp [cleanRegionGo]
  | i :: t, seen => by
    rw [cleanRegionGo]
    by_cases hc : toSlug (stripRankPrefix (regionBase i)) ∈ seen
    · rw [if_pos hc]
      exact cleanRegionGo_slugs_nodup t seen
    · rw [if_neg hc]
      rcases cleanRegionGo_slugs_nodup t
        (toSlug (stripRankPrefix (regionBase i)) :: seen) with ⟨hnd, hfresh⟩
      refine ⟨List.nodup_cons.mpr ⟨?_, hnd⟩, ?_⟩
      · intro hmem
        rcases List.mem_map.mp hmem with ⟨e, he, hes⟩
        exact hfresh e he (by rw [hes]; exact List.mem_cons_self _ _)
      · intro e he
        rcases List.mem_cons.mp he with heq | he
        · rw [heq]; exact hc
        · exact fun hmem => hfresh e he (List.mem_cons_of_mem _ hmem)

/-- C10: after cleanup, every region entry carries exactly one name — the
rank-prefix-stripped base of some input item of that region (its first
stored name, falling back to its stored slug when the first name is
missing or empty), with the entry's slug derived from that same name; all
other stored name variants are discarded. -/
theorem c10_region_names_singleton (rs : List (String × List RegionItem))
    (q : String × List RegionItem) (hq : q ∈ cleanRegions rs) :
    ∃ l, (q.1, l) ∈ rs ∧ q.2 = cleanRegionList l ∧
      ∀ e ∈ q.2, e.names.length = 1 ∧
        ∃ i ∈ l, e.names = [stripRankPrefix (regionBase i)] ∧
          e.slug = toSlug (stripRankPrefix (regionBase i)) := by
  rcases List.mem_map.mp hq with ⟨p, hp, rfl⟩
  refine ⟨p.2, hp, rfl, ?_⟩
  intro e he
  rcases mem_cleanRegionGo_shape p.2 [] e he with ⟨i, hi, rfl⟩
  exact ⟨rfl, i, hi, rfl, rfl⟩

/-- C10 witness: the theorem applied to the one-region registry whose
single KR item stores the names `"1. Fnatic"`, `"FNC"`. -/
theorem c10_witness :
    ((("KR" : String), cleanRegionList
        [({ slug := "kr", names := ["1. Fnatic", "FNC"], logo := "x" } : RegionItem)]) ∈
      cleanRegions [("KR", [{ slug := "kr", names := ["1. Fnatic", "FNC"], logo := "x" }])]) ∧
    ∃ l, (("KR" : String), l) ∈
        ([("KR", [({ slug := "kr", names := ["1. Fnatic", "FNC"], logo := "x" } : RegionItem)])] :
          List (String × List RegionItem)) ∧
      cleanRegionList [({ slug := "kr", names := ["1. Fnatic", "FNC"], logo := "x" } : RegionItem)]
        = cleanRegionList l ∧
      ∀ e ∈ cleanRegionList [({ slug := "kr", names := ["1. Fnatic", "FNC"], logo := "x" } : RegionItem)],
        e.names.length = 1 ∧
        ∃ i ∈ l, e.names = [stripRankPrefix (regionBase i)] ∧
          e.slug = toSlug (stripRankPrefix (regionBase i)) :=
  ⟨List.mem_cons_self _ _,
    c10_region_names_singleton
      [("KR", [{ slug := "kr", names := ["1. Fnatic", "FNC"], logo := "x" }])]
      ("KR", cleanRegionList [{ slug := "kr", names := ["1. Fnatic", "FNC"], logo := "x" }])
      (List.mem_cons_self _ _)⟩

theorem mkRegionGo_logo :
    ∀ (ns : List String) (idx : List (String × Team)) (e : RegionItem),
      e ∈ (mkRegionGo idx ns).2 → e.logo = "logos/" ++ e.slug ++ ".png"
  | [], _, _, h => by simp [mkRegionGo] at h
  | nm :: t, idx, e, h => by
    rw [mkRegionGo] at h
    rcases List.mem_cons.mp h with heq | h
    · rw [heq]
    · exact mkRegionGo_logo t _ e h

/-- C5 counterexample: in expand mode a region whose fetch fails keeps its
pre-run entries verbatim, so an entry whose stored logo does not match
its slug survives into the output registry — logo/slug lockstep fails for
region entries of failed regions. -/
theorem c5_failed_region_keeps_stale_logo :
    (expandLoop [("KR", none)]
        { bySlug := [],
          regions := [("KR", [{ slug := "x", names := [], logo := "bad" }])] }).regions
      = [("KR", [{ slug := "x", names := [], logo := "bad" }])] ∧
    ({ slug := "x", names := [], logo := "bad" } : RegionItem).logo ≠
      "logos/" ++ ({ slug := "x", names := [], logo := "bad" } : RegionItem).slug ++ ".png" := by
  constructor
  · rfl
  · decide

/-- C5 (amended): logo/slug lockstep holds for every team record produced
by cleanup, for every region entry produced by cleanup, for every team
record rebuilt by expand (logo regenerated from the index key), and for
every region entry of a successfully fetched region in expand; entries of
failed regions are passed through unchanged and are exempt. -/
theorem c5_lockstep_amended :
    (∀ ts : List Team, ∀ p ∈ cleanTeamsKeyed ts, p.2.logo = "logos/" ++ p.1 ++ ".png") ∧
    (∀ rs : List (String × List RegionItem), ∀ q ∈ cleanRegions rs, ∀ e ∈ q.2,
      e.logo = "logos/" ++ e.slug ++ ".png") ∧
    (∀ m : List (String × Team), ∀ t ∈ rebuildTeams m,
      ∃ p ∈ sortPairs m, t.logo = "logos/" ++ p.1 ++ ".png" ∧ t.names = p.2.names) ∧
    (∀ (idx : List (String × Team)) (ns : List String), ∀ e ∈ (mkRegionGo idx ns).2,
      e.logo = "logos/" ++ e.slug ++ ".png") := by
  refine ⟨cleanTeamsKeyed_logo, ?_, ?_, fun idx ns e he => mkRegionGo_logo ns idx e he⟩
  · intro rs q hq e he
    rcases List.mem_map.mp hq with ⟨p, _, rfl⟩
    rcases mem_cleanRegionGo_shape p.2 [] e he with ⟨i, _, rfl⟩
    rfl
  · intro m t ht
    rcases List.mem_map.mp ht with ⟨p, hp, rfl⟩
    exact ⟨p, hp, rfl, rfl⟩

/-- C5 witness: the amended lockstep evaluated on a concrete cleanup input
and a concrete expand success. -/
theorem c5_witness :
    (("fnatic", ({ logo := "logos/fnatic.png", names := ["Fnatic"], slug := "" } : Team)) ∈
        cleanTeamsKeyed [{ logo := "old.png", names := ["2. Fnatic"], slug := "" }] ∧
      ({ logo := "logos/fnatic.png", names := ["Fnatic"], slug := "" } : Team).logo
        = "logos/" ++ "fnatic" ++ ".png") ∧
    (({ slug := "sentinels", names := ["Sentinels"], logo := "logos/sentinels.png" } : RegionItem) ∈
        (mkRegionGo [] ["Sentinels"]).2 ∧
      ({ slug := "sentinels", names := ["Sentinels"], logo := "logos/sentinels.png" } : RegionItem).logo
        = "logos/" ++ "sentinels" ++ ".png") :=
  ⟨⟨by decide,
    c5_lockstep_amended.1 [{ logo := "old.png", names := ["2. Fnatic"], slug := "" }]
      ("fnatic", { logo := "logos/fnatic.png", names := ["Fnatic"], slug := "" }) (by decide)⟩,
   ⟨by decide,
    c5_lockstep_amended.2.2.2 [] ["Sentinels"]
      { slug := "sentinels", names := ["Sentinels"], logo := "logos/sentinels.png" } (by decide)⟩⟩

theorem key_mem_setA {α : Type} :
    ∀ (m : List (String × α)) (k' : String) (v : α) (k : String),
      k ∈ m.map Prod.fst → k ∈ (setA m k' v).map Prod.fst
  | [], _, _, _, h => by simp at h
  | (k₀, v₀) :: t, k', v, k, h => by
    by_cases h₀ : k₀ = k'
    · subst h₀
      simp only [setA, if_pos rfl, List.map_cons] at *
      exact h
    · simp only [setA, if_neg h₀, List.map_cons, List.mem_cons] at h ⊢
      rcases h with h | h
      · exact Or.inl h
      · exact Or.inr (key_mem_setA t k' v k h)

theorem self_key_mem_setA {α : Type} (m : List (String × α)) (k : String) (v : α) :
    k ∈ (setA m k v).map Prod.fst :=
  List.mem_map_of_mem Prod.fst (getA_mem (getA_setA_self m k v))

theorem cleanFold_key_preserved :
    ∀ (ts : List Team) (m : List (String × Team)) (k : String),
      k ∈ m.map Prod.fst → k ∈ (ts.foldl cleanStep m).map Prod.fst
  | [], _, _, h => h
  | t :: ts, m, k, h => by
    rw [List.foldl_cons]
    exact cleanFold_key_preserved ts _ k (key_mem_setA m _ _ k h)

theorem cleanFold_key_present :
    ∀ (ts : List Team) (m : List (String × Team)) (t : Team), t ∈ ts →
      cleanSlugOf t ∈ (ts.foldl cleanStep m).map Prod.fst
  | [], _, _, h => by simp at h
  | t' :: ts, m, t, h => by
    rw [List.foldl_cons]
    rcases List.mem_cons.mp h with heq | h
    · subst heq
      exact cleanFold_key_preserved ts _ _ (self_key_mem_setA m _ _)
    · exact cleanFold_key_present ts _ t h

/-- C6 counterexample: a region item with no names, empty slug and empty
logo is not skipped — the cleanup emits an entry with an empty slug (and
the degenerate logo `logos/.png`) into the cleaned region list, so an
empty-slug entry does appear in the output. -/
theorem c6_empty_slug_emitted :
    cleanRegions [("KR", [{ slug := "", names := [], logo := "" }])]
      = [("KR", [{ slug := "", names := [""], logo := "logos/.png" }])] ∧
    ({ slug := "", names := [""], logo := "logos/.png" } : RegionItem).slug = "" := by
  constructor
  · rfl
  · rfl

/-- C6 (amended): unresolvable inputs are not skipped.  Every input region
item — including one whose cleaned name and slug are empty — contributes
an entry with its computed slug to the cleaned region list, and every
input team — including one whose cleaned names and logo-derived fallback
are empty — contributes its computed slug as a key of the cleaned teams
map; at most one entry per slug is kept in each case (the deduplication is
by slug only, with no emptiness test). -/
theorem c6_unresolvable_not_skipped :
    (∀ (l : List RegionItem) (i : RegionItem), i ∈ l →
      ∃ e ∈ cleanRegionList l, e.slug = toSlug (stripRankPrefix (regionBase i))) ∧
    (∀ (ts : List Team) (t : Team), t ∈ ts →
      ∃ p ∈ cleanTeamsKeyed ts, p.1 = cleanSlugOf t) := by
  constructor
  · intro l i hi
    rcases cleanRegionGo_slug_present l [] i hi with hmem | h
    · simp at hmem
    · exact h
  · intro ts t ht
    have h := cleanFold_key_present ts [] t ht
    rcases List.mem_map.mp h with ⟨p, hp, hk⟩
    exact ⟨p, (sortLe_perm _ _).symm.mem_iff.mp hp, hk⟩

/-- C6 witness: the amended theorem applied to the item and team whose
cleaned name, slug and logo fallback are all empty — both contribute an
empty-slug entry. -/
theorem c6_witness :
    (({ slug := "", names := [], logo := "" } : RegionItem) ∈
        [({ slug := "", names := [], logo := "" } : RegionItem)] ∧
      ∃ e ∈ cleanRegionList [({ slug := "", names := [], logo := "" } : RegionItem)],
        e.slug = toSlug (stripRankPrefix
          (regionBase { slug := "", names := [], logo := "" }))) ∧
    (({ logo := "-", names := [], slug := "" } : Team) ∈
        [({ logo := "-", names := [], slug := "" } : Team)] ∧
      ∃ p ∈ cleanTeamsKeyed [({ logo := "-", names := [], slug := "" } : Team)],
        p.1 = cleanSlugOf { logo := "-", names := [], slug := "" }) :=
  ⟨⟨List.mem_cons_self _ _,
    c6_unresolvable_not_skipped.1 [{ slug := "", names := [], logo := "" }]
      { slug := "", names := [], logo := "" } (List.mem_cons_self _ _)⟩,
   ⟨List.mem_cons_self _ _,
    c6_unresolvable_not_skipped.2 [{ logo := "-", names := [], slug := "" }]
      { logo := "-", names := [], slug := "" } (List.mem_cons_self _ _)⟩⟩

/-- C3 counterexample: `mergeTeam` never calls `stripRankPrefix`.  On the
raw name `"1. Fnatic"` it stores the raw string (not the cleaned
`"Fnatic"`) and keys the record by the slug of the raw name; and on the
empty raw name it does not signal anything — it inserts an entry under the
empty slug, modifying the index. -/
theorem c3_mergeTeam_stores_raw :
    (mergeTeam [] "1. Fnatic").2.names = ["1. Fnatic"] ∧
    stripRankPrefix "1. Fnatic" = "Fnatic" ∧
    (mergeTeam [] "1. Fnatic").2.names ≠ [stripRankPrefix "1. Fnatic"] ∧
    (mergeTeam [] "").1 = [("", { logo := "logos/.png", names := [""], slug := "" })] ∧
    (mergeTeam [] "").1 ≠ [] := by
  refine ⟨rfl, by decide, by decide, rfl, by decide⟩

/-- C3 (amended): `mergeTeam` performs no rank-prefix stripping and no
emptiness check.  For every index and every raw name it computes
`slug = slugify(rawName)` directly from the raw name, stores the raw name
itself among the record's names (set semantics), rewrites the record's
logo from the slug, and always leaves the index mapping that slug to the
returned record — also when the raw name is empty. -/
theorem c3_mergeTeam_raw_insert (m : List (String × Team)) (name : String) :
    name ∈ (mergeTeam m name).2.names ∧
    getA (mergeTeam m name).1 (slugify name) = some (mergeTeam m name).2 ∧
    (mergeTeam m name).2.logo = "logos/" ++ slugify name ++ ".png" := by
  refine ⟨?_, ?_, ?_⟩
  · unfold mergeTeam
    rcases hg : getA m (slugify name) with _ | ex <;> simp only [hg]
    · exact List.mem_cons_self _ _
    · show name ∈ sortNames (uniq (ex.names ++ [name]))
      unfold sortNames
      rw [mem_sortLe, mem_uniq]
      exact List.mem_append_right _ (List.mem_cons_self _ _)
  · unfold mergeTeam
    rcases hg : getA m (slugify name) with _ | ex <;> simp only [hg] <;>
      exact getA_setA_self _ _ _
  · unfold mergeTeam
    rcases hg : getA m (slugify name) with _ | ex <;> simp only [hg]

/-! `buildSlugIndex` lemmas. -/

theorem getA_of_mem_nodup {α : Type} :
    ∀ {m : List (String × α)} {k : String} {v : α},
      (m.map Prod.fst).Nodup → (k, v) ∈ m → getA m k = some v
  | [], _, _, _, hm => by simp at hm
  | (k₀, v₀) :: t, k, v, hn, hm => by
    rcases List.mem_cons.mp hm with heq | hm
    · injection heq with h1 h2
      subst h1; subst h2
      simp [getA]
    · have hk : k₀ ≠ k := by
        intro h
        subst h
        exact (List.nodup_cons.mp (by simpa using hn)).1
          (List.mem_map_of_mem Prod.fst hm)
      simp only [getA, if_neg hk]
      exact getA_of_mem_nodup (List.nodup_cons.mp (by simpa using hn)).2 hm

theorem getA_buildFold :
    ∀ (ts : List Team) (m : List (String × Team)) (k : String),
      getA (ts.foldl (fun m t =>
          if (getA m (teamKey t)).isSome then m else setA m (teamKey t) t) m) k
        = match getA m k with
          | some v => some v
          | none => firstWithKey k ts
  | [], m, k => by
    rcases hg : getA m k with _ | v <;> simp [hg, firstWithKey]
  | t :: ts, m, k => by
    rw [List.foldl_cons, getA_buildFold ts _ k]
    by_cases hs : (getA m (teamKey t)).isSome
    · rw [if_pos hs]
      rcases hg : getA m k with _ | v
      · by_cases hk : teamKey t = k
        · subst hk
          rw [hg] at hs
          simp at hs
        · rw [firstWithKey, if_neg hk]
      · rfl
    · rw [if_neg hs]
      by_cases hk : teamKey t = k
      · subst hk
        have hg : getA m (teamKey t) = none := by
          rcases hg : getA m (teamKey t) with _ | v
          · rfl
          · rw [hg] at hs; simp at hs
        rw [getA_setA_self, hg, firstWithKey, if_pos rfl]
      · rw [getA_setA_ne m (teamKey t) k t (Ne.symm hk), firstWithKey, if_neg hk]

theorem getA_buildSlugIndex (ts : List Team) (k : String) :
    getA (buildSlugIndex ts) k = firstWithKey k ts := by
  unfold buildSlugIndex
  rw [getA_buildFold ts [] k]
  rfl

theorem firstWithKey_append_of_fresh (k : String) :
    ∀ (l₁ l₂ : List Team), (∀ t ∈ l₁, teamKey t ≠ k) →
      firstWithKey k (l₁ ++ l₂) = firstWithKey k l₂
  | [], _, _ => rfl
  | t :: l₁, l₂, h => by
    rw [List.cons_append, firstWithKey, if_neg (h t (List.mem_cons_self _ _))]
    exact firstWithKey_append_of_fresh k l₁ l₂ fun x hx => h x (List.mem_cons_of_mem _ hx)

theorem firstWithKey_mem {k : String} :
    ∀ {ts : List Team} {v : Team}, firstWithKey k ts = some v →
      v ∈ ts ∧ teamKey v = k
  | [], _, h => by simp [firstWithKey] at h
  | t :: ts, v, h => by
    rw [firstWithKey] at h
    by_cases hk : teamKey t = k
    · rw [if_pos hk] at h
      injection h with h
      subst h
      exact ⟨List.mem_cons_self _ _, hk⟩
    · rw [if_neg hk] at h
      rcases firstWithKey_mem h with ⟨hmem, hkey⟩
      exact ⟨List.mem_cons_of_mem _ hmem, hkey⟩

/-- C9: when expand builds its slug index, the first record with a given
key wins — the lookup equals the first input record with that key; in
particular, with a later record colliding on the key of an earlier one
(and no earlier occurrence of that key), the index maps the key to the
earlier record, the later record is never union-merged, and every entry
of the rebuilt teams output takes its names verbatim from the first input
record with its key. -/
theorem c9_first_record_wins :
    (∀ (ts : List Team) (k : String),
      getA (buildSlugIndex ts) k = firstWithKey k ts) ∧
    (∀ (l₁ : List Team) (t₁ : Team) (l₂ : List Team) (t₂ : Team) (l₃ : List Team),
      teamKey t₂ = teamKey t₁ → (∀ t ∈ l₁, teamKey t ≠ teamKey t₁) →
      getA (buildSlugIndex (l₁ ++ t₁ :: (l₂ ++ t₂ :: l₃))) (teamKey t₁) = some t₁) ∧
    (∀ (ts : List Team) (t : Team), t ∈ rebuildTeams (buildSlugIndex ts) →
      ∃ t₀ ∈ ts, t.names = t₀.names ∧ firstWithKey (teamKey t₀) ts = some t₀) := by
  refine ⟨getA_buildSlugIndex, ?_, ?_⟩
  · intro l₁ t₁ l₂ t₂ l₃ _ hfresh
    rw [getA_buildSlugIndex, firstWithKey_append_of_fresh _ l₁ _ hfresh,
      firstWithKey, if_pos rfl]
  · intro ts t ht
    rcases List.mem_map.mp ht with ⟨p, hp, rfl⟩
    have hp' : p ∈ buildSlugIndex ts := (sortLe_perm _ _).mem_iff.mp hp
    have hg : getA (buildSlugIndex ts) p.1 = some p.2 := by
      rcases p with ⟨k, v⟩
      exact getA_of_mem_nodup (buildSlugIndex_keys_nodup ts) hp'
    rw [getA_buildSlugIndex] at hg
    rcases firstWithKey_mem hg with ⟨hmem, hkey⟩
    refine ⟨p.2, hmem, rfl, ?_⟩
    rw [hkey, hg]

/-- C9 witness: two records whose logos give the same key `"a"`; the index
keeps the first record and its names, the later record is dropped. -/
theorem c9_witness :
    (getA (buildSlugIndex [{ logo := "logos/a.png", names := ["A1"], slug := "" },
        { logo := "logos/a.png", names := ["A2"], slug := "" }]) "a"
      = firstWithKey "a"
          [({ logo := "logos/a.png", names := ["A1"], slug := "" } : Team),
           { logo := "logos/a.png", names := ["A2"], slug := "" }]) ∧
    (teamKey ({ logo := "logos/a.png", names := ["A2"], slug := "" } : Team)
        = teamKey ({ logo := "logos/a.png", names := ["A1"], slug := "" } : Team) ∧
      getA (buildSlugIndex ([] ++ ({ logo := "logos/a.png", names := ["A1"], slug := "" } : Team) ::
          ([] ++ ({ logo := "logos/a.png", names := ["A2"], slug := "" } : Team) :: [])))
        (teamKey ({ logo := "logos/a.png", names := ["A1"], slug := "" } : Team))
        = some { logo := "logos/a.png", names := ["A1"], slug := "" }) :=
  ⟨c9_first_record_wins.1 _ "a",
   by decide,
   c9_first_record_wins.2.1 [] _ [] _ []
     (by decide)
     (fun t ht => by simp at ht)⟩

/-! Expand-loop lemmas. -/

theorem expandLoop_append (l₁ l₂ : List (String × Option (List String)))
    (s : ExpandState) :
    expandLoop (l₁ ++ l₂) s = expandLoop l₂ (expandLoop l₁ s) := by
  unfold expandLoop
  rw [List.foldl_append]

theorem stepRegion_regions_other (s : ExpandState) (code : String)
    (oc : Option (List String)) (k : String) (h : k ≠ code) :
    getA (stepRegion s code oc).regions k = getA s.regions k := by
  unfold stepRegion
  rcases oc with _ | names
  · rcases getA s.regions code with _ | v
    · exact getA_setA_ne _ _ _ _ h
    · rfl
  · exact getA_setA_ne _ _ _ _ h

theorem expandLoop_regions_other :
    ∀ (regs : List (String × Option (List String))) (s : ExpandState) (k : String),
      k ∉ regs.map Prod.fst →
      getA (expandLoop regs s).regions k = getA s.regions k
  | [], _, _, _ => rfl
  | r :: regs, s, k, h => by
    rw [show expandLoop (r :: regs) s = expandLoop regs (stepRegion s r.1 r.2) from rfl]
    have h1 : k ∉ regs.map Prod.fst := fun hc => h (List.mem_cons_of_mem _ hc)
    have h2 : k ≠ r.1 := fun hc => h (by rw [List.map_cons]; exact hc ▸ List.mem_cons_self _ _)
    rw [expandLoop_regions_other regs _ k h1]
    exact stepRegion_regions_other s r.1 r.2 k h2

theorem stepRegion_own_none (s : ExpandState) (code : String) :
    getA (stepRegion s code none).regions code
      = some ((getA s.regions code).getD []) := by
  unfold stepRegion
  rcases hg : getA s.regions code with _ | v
  · exact getA_setA_self _ _ _
  · exact hg

theorem stepRegion_own_some (s : ExpandState) (code : String) (ns : List String) :
    getA (stepRegion s code (some ns)).regions code
      = some (mkRegionGo s.bySlug ns).2 :=
  getA_setA_self _ _ _

theorem stepRegion_isSome_preserved (s : ExpandState) (code : String)
    (oc : Option (List String)) (k : String)
    (h : (getA s.regions k).isSome) :
    (getA (stepRegion s code oc).regions k).isSome := by
  by_cases hk : k = code
  · subst hk
    rcases oc with _ | ns
    · rw [stepRegion_own_none]; rfl
    · rw [stepRegion_own_some]; rfl
  · rw [stepRegion_regions_other s code oc k hk]
    exact h

theorem expandLoop_isSome_preserved :
    ∀ (regs : List (String × Option (List String))) (s : ExpandState) (k : String),
      (getA s.regions k).isSome → (getA (expandLoop regs s).regions k).isSome
  | [], _, _, h => h
  | r :: regs, s, k, h => by
    rw [show expandLoop (r :: regs) s = expandLoop regs (stepRegion s r.1 r.2) from rfl]
    exact expandLoop_isSome_preserved regs _ k (stepRegion_isSome_preserved s r.1 r.2 k h)

theorem expandLoop_all_regions_present :
    ∀ (regs : List (String × Option (List String))) (s : ExpandState)
      (p : String × Option (List String)), p ∈ regs →
      (getA (expandLoop regs s).regions p.1).isSome
  | [], _, _, h => by simp at h
  | r :: regs, s, p, h => by
    rw [show expandLoop (r :: regs) s = expandLoop regs (stepRegion s r.1 r.2) from rfl]
    rcases List.mem_cons.mp h with heq | h
    · subst heq
      refine expandLoop_isSome_preserved regs _ p.1 ?_
      rcases hoc : p.2 with _ | ns
      · rw [stepRegion_own_none]; rfl
      · rw [stepRegion_own_some]; rfl
    · exact expandLoop_all_regions_present regs _ p h

/-- C8: per-region failure isolation of the expand loop.  With the fetch
oracle failing for `code` (outcome `none`) the output registry keeps
`code`'s pre-run region list (or gets the empty list if there was none);
with a successful outcome the output holds the freshly built list; and
every configured region — including the ones after a failed one — ends
with an entry present in the output regions map, so one region's failure
never stops the loop. -/
theorem c8_failed_region_isolation
    (s : ExpandState) (l₁ l₂ : List (String × Option (List String)))
    (code : String) (oc : Option (List String))
    (hnd : ((l₁ ++ (code, oc) :: l₂).map Prod.fst).Nodup) :
    (oc = none →
      getA (expandLoop (l₁ ++ (code, oc) :: l₂) s).regions code
        = some ((getA s.regions code).getD [])) ∧
    (∀ ns, oc = some ns →
      getA (expandLoop (l₁ ++ (code, oc) :: l₂) s).regions code
        = some (mkRegionGo (expandLoop l₁ s).bySlug ns).2) ∧
    (∀ p ∈ l₁ ++ (code, oc) :: l₂,
      (getA (expandLoop (l₁ ++ (code, oc) :: l₂) s).regions p.1).isSome) := by
  have hmap : (l₁ ++ (code, oc) :: l₂).map Prod.fst
      = l₁.map Prod.fst ++ code :: l₂.map Prod.fst := by
    rw [List.map_append, List.map_cons]
  rw [hmap] at hnd
  rcases List.nodup_append.mp hnd with ⟨_, hnd2, hdisj⟩
  have hc1 : code ∉ l₁.map Prod.fst := fun hc =>
    hdisj hc (List.mem_cons_self _ _)
  have hc2 : code ∉ l₂.map Prod.fst := (List.nodup_cons.mp hnd2).1
  have hsplit : expandLoop (l₁ ++ (code, oc) :: l₂) s
      = expandLoop l₂ (stepRegion (expandLoop l₁ s) code oc) := by
    rw [expandLoop_append]
    rfl
  refine ⟨?_, ?_, ?_⟩
  · rintro rfl
    rw [hsplit, expandLoop_regions_other l₂ _ code hc2, stepRegion_own_none,
      expandLoop_regions_other l₁ s code hc1]
  · rintro ns rfl
    rw [hsplit, expandLoop_regions_other l₂ _ code hc2, stepRegion_own_some]
  · exact fun p hp => expandLoop_all_regions_present _ s p hp

/-- C8 witness: EU succeeds with candidate `"Fnatic"`, KR's fetch fails;
KR keeps its pre-run list, EU holds the fresh data, both are present. -/
theorem c8_witness :
    ((([("EU", some ["Fnatic"])] ++ [(("KR" : String), (none : Option (List String)))]).map
        Prod.fst).Nodup) ∧
    getA (expandLoop ([("EU", some ["Fnatic"])] ++ [("KR", none)])
        { bySlug := [],
          regions := [("KR", [{ slug := "kr", names := ["Old"], logo := "logos/kr.png" }])] }).regions
      "KR"
      = some ((getA ([("KR", [{ slug := "kr", names := ["Old"], logo := "logos/kr.png" }])] :
          List (String × List RegionItem)) "KR").getD []) := by
  constructor
  · decide
  · exact (c8_failed_region_isolation
      { bySlug := [],
        regions := [("KR", [{ slug := "kr", names := ["Old"], logo := "logos/kr.png" }])] }
      [("EU", some ["Fnatic"])] [] "KR" none (by decide)).1 rfl

/-! Character-level lemmas for the slug pipelines. -/

theorem toNat_ne {a b : Char} (h : a.toNat ≠ b.toNat) : a ≠ b :=
  fun hc => h (congrArg Char.toNat hc)

theorem flatMap_decomp_ascii : ∀ {l : List Char}, (∀ c ∈ l, c.toNat ≤ 127) →
    l.flatMap decomp = l
  | [], _ => rfl
  | c :: t, h => by
    rw [List.flatMap_cons,
      show decomp c = [c] from by
        unfold decomp; rw [if_pos (h c (List.mem_cons_self _ _))],
      flatMap_decomp_ascii (fun x hx => h x (List.mem_cons_of_mem _ hx))]
    rfl

theorem isCombiningMark_ascii {c : Char} (h : c.toNat ≤ 127) :
    isCombiningMark c = false := by
  unfold isCombiningMark
  have h1 : ¬(768 ≤ c.toNat) := by omega
  simp [h1]

theorem latinizeL_ascii {l : List Char} (h : ∀ c ∈ l, c.toNat ≤ 127) :
    latinizeL l = l := by
  unfold latinizeL
  rw [flatMap_decomp_ascii h]
  refine List.filter_eq_self.mpr ?_
  intro c hc
  rw [Bool.not_eq_true', isCombiningMark_ascii (h c hc)]

theorem jsLower_toNat (c : Char) :
    (jsLower c).toNat = if 65 ≤ c.toNat ∧ c.toNat ≤ 90 then c.toNat + 32 else c.toNat := by
  unfold jsLower
  by_cases h : 65 ≤ c.toNat ∧ c.toNat ≤ 90
  · rw [if_pos h, if_pos h,
      Char.ofNat, dif_pos (by left; omega : (c.toNat + 32).isValidChar)]
    rfl
  · rw [if_neg h, if_neg h]

theorem jsLower_eq_self {c : Char} (h : ¬(65 ≤ c.toNat ∧ c.toNat ≤ 90)) :
    jsLower c = c := by
  unfold jsLower
  rw [if_neg h]

/-- The lowered form of a plain character: lowercase alphanumeric, space
or hyphen. -/
theorem jsLower_plain {c : Char} (h : plainChar c = true) :
    isLowAln (jsLower c) = true ∨ (jsLower c).toNat = 32 ∨ (jsLower c).toNat = 45 := by
  have hnum := jsLower_toNat c
  simp only [plainChar, Bool.or_eq_true, Bool.and_eq_true, decide_eq_true_eq] at h
  simp only [isLowAln, Bool.or_eq_true, Bool.and_eq_true, decide_eq_true_eq]
  by_cases hu : 65 ≤ c.toNat ∧ c.toNat ≤ 90
  · rw [if_pos hu] at hnum
    omega
  · rw [if_neg hu] at hnum
    omega

/-! Run-collapse and trim lemmas. -/

theorem mem_collapseGo {p : Char → Bool} :
    ∀ {l : List Char} {b : Bool} {c : Char},
      c ∈ collapseGo p l b → c = '-' ∨ p c = false
  | [], _, _, h => by simp [collapseGo] at h
  | a :: t, b, c, h => by
    rw [collapseGo] at h
    by_cases hp : p a
    · rw [if_pos hp] at h
      rcases b with _ | _
      · rcases List.mem_cons.mp (by simpa using h) with heq | h
        · exact Or.inl heq
        · exact mem_collapseGo h
      · exact mem_collapseGo (by simpa using h)
    · rw [if_neg hp] at h
      rcases List.mem_cons.mp h with heq | h
      · exact Or.inr (heq ▸ by simpa using hp)
      · exact mem_collapseGo h

theorem collapseGo_noTwo {p : Char → Bool} (hp : p '-' = true) :
    ∀ (l : List Char) (b : Bool),
      NoTwo (collapseGo p l b) ∧
      (b = true → (collapseGo p l b).head? ≠ some '-')
  | [], b => by
    constructor
    · exact List.chain'_nil
    · intro _ h
      simp [collapseGo] at h
  | a :: t, b => by
    rw [collapseGo]
    by_cases hpa : p a
    · rw [if_pos hpa]
      rcases b with _ | _
      · simp only [Bool.false_eq_true, if_false]
        rcases collapseGo_noTwo hp t true with ⟨hc, hh⟩
        constructor
        · rw [NoTwo, List.chain'_cons']
          refine ⟨?_, hc⟩
          intro x hx
          rintro ⟨_, hx'⟩
          exact hh rfl (by rw [hx]; rw [hx'])
        · intro hF
          exact absurd hF (by decide)
      · exact ⟨(collapseGo_noTwo hp t true).1,
          fun _ => (collapseGo_noTwo hp t true).2 rfl⟩
    · rw [if_neg hpa]
      rcases collapseGo_noTwo hp t false with ⟨hc, _⟩
      have ha : a ≠ '-' := fun hc' => hpa (hc' ▸ hp)
      constructor
      · rw [NoTwo, List.chain'_cons']
        exact ⟨fun x _ => fun hx => ha hx.1, hc⟩
      · intro _ h
        rw [List.head?_cons] at h
        exact ha (by injection h)

theorem NoTwo_collapseNA (l : List Char) : NoTwo (collapseNA l) :=
  (collapseGo_noTwo (by decide) l false).1

theorem NoTwo_tail {a : Char} {l : List Char} (h : NoTwo (a :: l)) : NoTwo l :=
  List.Chain'.tail h

theorem NoTwo_reverse {l : List Char} (h : NoTwo l) : NoTwo l.reverse := by
  rw [NoTwo, List.chain'_reverse]
  refine List.Chain'.imp ?_ h
  intro a b hab ⟨h1, h2⟩
  exact hab ⟨h2, h1⟩

theorem dropWhileHy_of_noTwo :
    ∀ {l : List Char}, NoTwo l →
      l.dropWhile (fun c => c = '-') = (if l.head? = some '-' then l.tail else l)
  | [], _ => rfl
  | c :: t, h => by
    by_cases hc : c = '-'
    · subst hc
      rw [List.dropWhile_cons_of_pos (by decide), if_pos (by rw [List.head?_cons])]
      rw [List.tail_cons]
      cases t with
      | nil => rfl
      | cons d u =>
        have hd : d ≠ '-' := by
          intro hd
          rcases List.chain'_cons.mp h with ⟨hrel, _⟩
          exact hrel ⟨rfl, hd⟩
        rw [List.dropWhile_cons_of_neg (by simpa using hd)]
    · rw [List.dropWhile_cons_of_neg (by simpa using hc),
        if_neg (by rw [List.head?_cons]; exact fun hq => hc (by injection hq))]

theorem trimHyL_eq_dropOneEdge {l : List Char} (h : NoTwo l) :
    trimHyL l = dropOneEdge l := by
  unfold trimHyL dropOneEdge
  rw [dropWhileHy_of_noTwo h]
  have h1 : NoTwo (if l.head? = some '-' then l.tail else l) := by
    by_cases hc : l.head? = some '-'
    · rw [if_pos hc]
      cases l with
      | nil => exact h
      | cons c t => exact NoTwo_tail h
    · rw [if_neg hc]
      exact h
  rw [dropWhileHy_of_noTwo (NoTwo_reverse h1)]

theorem collapseHyGo_of_noTwo :
    ∀ (l : List Char) (b : Bool), NoTwo l → (b = true → l.head? ≠ some '-') →
      collapseGo (fun c => c = '-') l b = l
  | [], _, _, _ => rfl
  | c :: t, b, h, hb => by
    rw [collapseGo]
    by_cases hc : c = '-'
    · subst hc
      rcases b with _ | _
      · rw [if_pos (by decide)]
        simp only [Bool.false_eq_true, if_false]
        refine congrArg (List.cons _) (collapseHyGo_of_noTwo t true (NoTwo_tail h) ?_)
        intro _
        cases t with
        | nil => simp
        | cons d u =>
          have hd : d ≠ '-' := by
            intro hd
            rcases List.chain'_cons.mp h with ⟨hrel, _⟩
            exact hrel ⟨rfl, hd⟩
          rw [List.head?_cons]
          exact fun hq => hd (by injection hq)
      · exact absurd (rfl : (('-' :: t).head?) = some '-') (hb rfl)
    · rw [if_neg (by simpa using hc)]
      exact congrArg (List.cons c)
        (collapseHyGo_of_noTwo t false (NoTwo_tail h) (by simp))

theorem collapseHy_of_noTwo {l : List Char} (h : NoTwo l) : collapseHy l = l :=
  collapseHyGo_of_noTwo l false h (by simp)

theorem head?_dropWhile (p : Char → Bool) :
    ∀ (l : List Char) (h : Char), (l.dropWhile p).head? = some h → p h = false
  | [], h, hyp => by simp [List.dropWhile] at hyp
  | c :: t, h, hyp => by
    by_cases hc : p c
    · rw [List.dropWhile_cons_of_pos hc] at hyp
      exact head?_dropWhile p t h hyp
    · rw [List.dropWhile_cons_of_neg hc, List.head?_cons] at hyp
      injection hyp with hyp
      exact Bool.eq_false_iff.mpr (fun hb => hc (hyp ▸ hb))

theorem head?_of_IsPrefix {l p : List Char} (hp : p <+: l) (hne : p ≠ []) :
    p.head? = l.head? := by
  rcases hp with ⟨t, rfl⟩
  cases p with
  | nil => exact absurd rfl hne
  | cons x r => rfl

theorem trimHyL_head_facts (l : List Char) :
    (trimHyL l).head? ≠ some '-' ∧ (trimHyL l).reverse.head? ≠ some '-' := by
  unfold trimHyL
  constructor
  · have hsuf : (l.dropWhile (fun c => c = '-')).reverse.dropWhile (fun c => c = '-')
        <:+ (l.dropWhile (fun c => c = '-')).reverse := List.dropWhile_suffix _
    have hpre : ((l.dropWhile (fun c => c = '-')).reverse.dropWhile
        (fun c => c = '-')).reverse <+: l.dropWhile (fun c => c = '-') := by
      have := List.reverse_prefix.mpr hsuf
      rwa [List.reverse_reverse] at this
    cases hBrev : ((l.dropWhile (fun c => c = '-')).reverse.dropWhile
        (fun c => c = '-')).reverse with
    | nil => simp
    | cons x r =>
      rw [hBrev] at hpre
      have hx : (l.dropWhile (fun c => c = '-')).head? = some x := by
        rw [← head?_of_IsPrefix hpre (by simp)]
        rfl
      have hxf := head?_dropWhile _ l x hx
      rw [List.head?_cons]
      intro hcon
      injection hcon with hcon
      rw [hcon] at hxf
      simp at hxf
  · rw [List.reverse_reverse]
    intro hcon
    have := head?_dropWhile _ _ _ hcon
    simp at this

theorem NoTwo_trimHyL {l : List Char} (h : NoTwo l) : NoTwo (trimHyL l) := by
  unfold trimHyL
  refine NoTwo_reverse ?_
  refine List.Chain'.suffix ?_ (List.dropWhile_suffix _)
  refine NoTwo_reverse ?_
  exact List.Chain'.suffix h (List.dropWhile_suffix _)

theorem dropOneEdge_eq_self {l : List Char} (h1 : l.head? ≠ some '-')
    (h2 : l.reverse.head? ≠ some '-') : dropOneEdge l = l := by
  unfold dropOneEdge
  rw [if_neg h1]
  show (if l.reverse.head? = some '-' then l.reverse.tail else l.reverse).reverse = l
  rw [if_neg h2, List.reverse_reverse]

theorem flatMap_amp_id : ∀ {l : List Char}, (∀ c ∈ l, c ≠ '&') →
    l.flatMap (fun c => if c = '&' then ['a', 'n', 'd'] else [c]) = l
  | [], _ => rfl
  | c :: t, h => by
    rw [List.flatMap_cons, if_neg (h c (List.mem_cons_self _ _)),
      flatMap_amp_id (fun x hx => h x (List.mem_cons_of_mem _ hx))]
    rfl

/-- C2 counterexample: the two call sites do not agree.  The cleanup
pass's `toSlug` maps `"G2"` to `"g2"`; the expand pass's `slugify` maps it
to `"g2-esports"` through the override table, which `toSlug` lacks (as it
lacks the stoplist, the ampersand replacement and the apostrophe
stripping). -/
theorem c2_toSlug_ne_slugify :
    toSlug "G2" = "g2" ∧ slugify "G2" = "g2-esports" ∧ toSlug "G2" ≠ slugify "G2" :=
  ⟨by decide, by decide, by decide⟩

/-- C2 (amended): the two slug functions agree exactly on tame names — a
name of ASCII letters, digits, spaces and hyphens (no ampersand, no
apostrophe, nothing needing latinization) whose `toSlug` form contains no
stoplist word as a hyphen-delimited component, is not a key of the
override table, and is not `"constructor"`, the one property name the
override lookup inherits from `Object.prototype`.  Outside that set they
may diverge. -/
theorem c2_toSlug_eq_slugify_of_plain (s : String)
    (h1 : ∀ c ∈ s.data, plainChar c = true)
    (h2 : removeNoise (toSlug s).data = (toSlug s).data)
    (h3 : specials.lookup (toSlug s) = none)
    (h4 : toSlug s ≠ "constructor") :
    slugify s = toSlug s := by
  have hascii : ∀ c ∈ s.data, c.toNat ≤ 127 := by
    intro c hc
    have hcp := h1 c hc
    simp only [plainChar, Bool.or_eq_true, Bool.and_eq_true, decide_eq_true_eq] at hcp
    omega
  have hlat : latinizeL s.data = s.data := latinizeL_ascii hascii
  have hMchars : ∀ c ∈ s.data.map jsLower,
      isLowAln c = true ∨ c.toNat = 32 ∨ c.toNat = 45 := by
    intro c hc
    rcases List.mem_map.mp hc with ⟨c₀, hc₀, rfl⟩
    exact jsLower_plain (h1 c₀ hc₀)
  have hMnat : ∀ c ∈ s.data.map jsLower,
      (97 ≤ c.toNat ∧ c.toNat ≤ 122) ∨ (48 ≤ c.toNat ∧ c.toNat ≤ 57) ∨
        c.toNat = 32 ∨ c.toNat = 45 := by
    intro c hc
    rcases hMchars c hc with h | h | h
    · simp only [isLowAln, Bool.or_eq_true, Bool.and_eq_true, decide_eq_true_eq] at h
      rcases h with h | h
      · exact Or.inl h
      · exact Or.inr (Or.inl h)
    · exact Or.inr (Or.inr (Or.inl h))
    · exact Or.inr (Or.inr (Or.inr h))
  have hamp : (s.data.map jsLower).flatMap
      (fun c => if c = '&' then ['a', 'n', 'd'] else [c]) = s.data.map jsLower := by
    refine flatMap_amp_id ?_
    intro c hc
    refine toNat_ne ?_
    rcases hMnat c hc with h | h | h | h <;> simp <;> omega
  have hapos : (s.data.map jsLower).filter
      (fun c => !(c = '\'' || c = '’')) = s.data.map jsLower := by
    refine List.filter_eq_self.mpr ?_
    intro c hc
    have hne1 : c ≠ '\'' := by
      refine toNat_ne ?_
      rcases hMnat c hc with h | h | h | h <;> simp <;> omega
    have hne2 : c ≠ '’' := by
      refine toNat_ne ?_
      rcases hMnat c hc with h | h | h | h <;> simp <;> omega
    simp [hne1, hne2]
  have hX : NoTwo (collapseNA (s.data.map jsLower)) :=
    NoTwo_collapseNA (s.data.map jsLower)
  have hts : (toSlug s).data = trimHyL (collapseNA (s.data.map jsLower)) := by
    unfold toSlug
    rw [hlat]
  have hhead := trimHyL_head_facts (collapseNA (s.data.map jsLower))
  show specialsGet
      (⟨dropOneEdge (collapseHy (removeNoise (dropOneEdge (collapseHy (collapseNA
        ((((latinizeL s.data).map jsLower).flatMap
          (fun c => if c = '&' then ['a', 'n', 'd'] else [c])).filter
            (fun c => !(c = '\'' || c = '’'))))))))⟩ : String) = toSlug s
  rw [hlat, hamp, hapos,
    collapseHy_of_noTwo hX,
    ← trimHyL_eq_dropOneEdge hX,
    ← hts, h2, hts,
    collapseHy_of_noTwo (NoTwo_trimHyL hX),
    dropOneEdge_eq_self hhead.1 hhead.2,
    ← hts]
  have hmk : (⟨(toSlug s).data⟩ : String) = toSlug s := rfl
  rw [hmk]
  show (match specials.lookup (toSlug s) with
      | some v => v
      | none => if toSlug s = "constructor" then objectCtorVal else toSlug s) = toSlug s
  rw [h3]
  show (if toSlug s = "constructor" then objectCtorVal else toSlug s) = toSlug s
  rw [if_neg h4]

/-- C2 witness: both pipelines agree on the plain name `"Sentinels"`. -/
theorem c2_witness :
    (∀ c ∈ ("Sentinels" : String).data, plainChar c = true) ∧
    removeNoise (toSlug "Sentinels").data = (toSlug "Sentinels").data ∧
    specials.lookup (toSlug "Sentinels") = none ∧
    toSlug "Sentinels" ≠ "constructor" ∧
    slugify "Sentinels" = toSlug "Sentinels" :=
  ⟨by decide, by decide, by decide, by decide,
    c2_toSlug_eq_slugify_of_plain "Sentinels"
      (by decide) (by decide) (by decide) (by decide)⟩

/-! Cleanup idempotence machinery. -/

theorem map_strip_id : ∀ {ns : List String}, (∀ n ∈ ns, stripRankPrefix n = n) →
    ns.map stripRankPrefix = ns
  | [], _ => rfl
  | n :: t, h => by
    rw [List.map_cons, h n (List.mem_cons_self _ _),
      map_strip_id (fun x hx => h x (List.mem_cons_of_mem _ hx))]

theorem stripNames_of_fixed {ns : List String}
    (h : ∀ n ∈ ns, stripRankPrefix n = n ∧ n ≠ "") : stripNames ns = ns := by
  unfold stripNames
  rw [map_strip_id (fun n hn => (h n hn).1)]
  refine List.filter_eq_self.mpr ?_
  intro n hn
  simpa using (h n hn).2

theorem mem_stripNames {ns : List String} {x : String} (h : x ∈ stripNames ns) :
    (∃ n ∈ ns, stripRankPrefix n = x) ∧ x ≠ "" := by
  unfold stripNames at h
  rcases List.mem_filter.mp h with ⟨hmap, hne⟩
  rcases List.mem_map.mp hmap with ⟨n, hn, rfl⟩
  exact ⟨⟨n, hn, rfl⟩, by simpa using hne⟩

theorem stripNames_ne_nil {ns : List String} {n : String} (hn : n ∈ ns)
    (hs : stripRankPrefix n ≠ "") : stripNames ns ≠ [] := by
  have : stripRankPrefix n ∈ stripNames ns := by
    unfold stripNames
    refine List.mem_filter.mpr ⟨List.mem_map_of_mem _ hn, by simpa using hs⟩
  exact List.ne_nil_of_mem this

theorem cleanFold_good :
    ∀ (ts : List Team) (m : List (String × Team)),
      (∀ t ∈ ts,
        (∀ n ∈ t.names, stripRankPrefix (stripRankPrefix n) = stripRankPrefix n) ∧
        ∃ n ∈ t.names, stripRankPrefix n ≠ "") →
      (∀ p ∈ m, GoodPair p) →
      ∀ p ∈ ts.foldl cleanStep m, GoodPair p
  | [], _, _, hm => hm
  | t :: ts, m, hts, hm => by
    rw [List.foldl_cons]
    refine cleanFold_good ts _ (fun x hx => hts x (List.mem_cons_of_mem _ hx)) ?_
    rcases hts t (List.mem_cons_self _ _) with ⟨hfix, hsome⟩
    have hns : ∀ x ∈ stripNames t.names, stripRankPrefix x = x ∧ x ≠ "" := by
      intro x hx
      rcases mem_stripNames hx with ⟨⟨n, hn, rfl⟩, hne⟩
      exact ⟨hfix n hn, hne⟩
    have hnsne : stripNames t.names ≠ [] := by
      rcases hsome with ⟨n, hn, hne⟩
      exact stripNames_ne_nil hn hne
    intro p hp
    rcases mem_setA hp with heq | hp
    · subst heq
      rcases hh : stripNames t.names with _ | ⟨x, r⟩
      · exact absurd hh hnsne
      · have hx : x ∈ stripNames t.names := by rw [hh]; exact List.mem_cons_self _ _
        have hxne : x ≠ "" := (hns x hx).2
        have hslug : cleanSlugOf t = toSlug x := by
          unfold cleanSlugOf
          rw [hh]
          show toSlug (if x = "" then slugFromLogo t.logo else x) = toSlug x
          rw [if_neg hxne]
        have hmemarg : ∀ n, n ∈ ((getA m (cleanSlugOf t)).getD
            { logo := "logos/" ++ cleanSlugOf t ++ ".png", names := [] }).names
              ++ stripNames t.names →
            stripRankPrefix n = n ∧ n ≠ "" := by
          intro n hn
          rcases List.mem_append.mp hn with hn | hn
          · rcases hg : getA m (cleanSlugOf t) with _ | e₀
            · rw [hg] at hn
              simp at hn
            · rw [hg] at hn
              have hgood : GoodPair (cleanSlugOf t, e₀) := hm _ (getA_mem hg)
              exact hgood.2.1 n hn
          · exact hns n hn
        have hnames : ∃ y ys, uniq (((getA m (cleanSlugOf t)).getD
            { logo := "logos/" ++ cleanSlugOf t ++ ".png", names := [] }).names
              ++ stripNames t.names) = y :: ys ∧ toSlug y = cleanSlugOf t := by
          cases hg : getA m (cleanSlugOf t) with
          | none =>
            rw [hh]
            exact ⟨x, dedupGo r [x], uniq_cons_head x r, hslug.symm⟩
          | some e₀ =>
            have hgood : GoodPair (cleanSlugOf t, e₀) := hm _ (getA_mem hg)
            rw [hh]
            rcases he₀ : e₀.names with _ | ⟨y, q⟩
            · exact absurd he₀ hgood.1
            · refine ⟨y, dedupGo (q ++ x :: r) [y], ?_, ?_⟩
              · show uniq (e₀.names ++ x :: r) = y :: dedupGo (q ++ x :: r) [y]
                rw [he₀]
                exact uniq_cons_head y (q ++ x :: r)
              · have hhead₀ := hgood.2.2.1
                rw [he₀] at hhead₀
                exact hhead₀
        rcases hnames with ⟨y, ys, hnames, hyslug⟩
        rw [hh] at hnames hmemarg
        refine ⟨?_, ?_, ?_, uniq_nodup _, rfl, rfl⟩
        · show uniq _ ≠ []
          rw [hnames]
          simp
        · intro n hn
          exact hmemarg n ((mem_uniq _ n).mp hn)
        · show toSlug ((uniq _).headD "") = cleanSlugOf t
          rw [hnames]
          exact hyslug
    · exact hm p hp

theorem cleanStep_self (acc : List (String × Team)) (k : String) (e : Team)
    (hg : GoodPair (k, e)) (hnotin : k ∉ acc.map Prod.fst) :
    cleanStep acc e = acc ++ [(k, e)] := by
  rcases hg with ⟨hne, hfix, hhead, hnd, hlogo, hslugf⟩
  have hstrip : stripNames e.names = e.names := stripNames_of_fixed hfix
  have hslug : cleanSlugOf e = k := by
    unfold cleanSlugOf
    rw [hstrip]
    rcases hE : e.names with _ | ⟨n, rest⟩
    · exact absurd hE hne
    · have hn' : n ≠ "" := (hfix n (hE ▸ List.mem_cons_self _ _)).2
      show toSlug (if (n :: rest).headD "" = "" then slugFromLogo e.logo
        else (n :: rest).headD "") = k
      rw [show (n :: rest).headD "" = n from rfl, if_neg hn']
      rw [hE] at hhead
      exact hhead
  have hnone : getA acc (cleanSlugOf e) = none := by
    rw [hslug]
    exact (getA_eq_none_iff acc k).mpr hnotin
  show setA acc (cleanSlugOf e)
      { logo := "logos/" ++ cleanSlugOf e ++ ".png",
        names := uniq (((getA acc (cleanSlugOf e)).getD
          { logo := "logos/" ++ cleanSlugOf e ++ ".png", names := [] }).names
            ++ stripNames e.names) } = acc ++ [(k, e)]
  rw [hstrip, hnone, hslug]
  show setA acc k { logo := "logos/" ++ k ++ ".png", names := uniq e.names } = acc ++ [(k, e)]
  rw [uniq_eq_self hnd]
  have hval : ({ logo := "logos/" ++ k ++ ".png", names := e.names } : Team) = e := by
    rcases e with ⟨lg, nm, sl⟩
    have h1 : lg = "logos/" ++ k ++ ".png" := hlogo
    have h2 : sl = "" := hslugf
    subst h1
    subst h2
    rfl
  rw [hval]
  exact setA_of_not_mem e hnotin

theorem cleanFold_refold :
    ∀ (out acc : List (String × Team)),
      (∀ p ∈ out, GoodPair p) →
      ((acc.map Prod.fst ++ out.map Prod.fst).Nodup) →
      (out.map Prod.snd).foldl cleanStep acc = acc ++ out
  | [], acc, _, _ => by simp
  | (k, e) :: out, acc, hgood, hnd => by
    rw [List.map_cons, List.foldl_cons]
    have hknotin : k ∉ acc.map Prod.fst := by
      rw [List.map_cons] at hnd
      intro hc
      rcases List.nodup_append.mp hnd with ⟨_, _, hdisj⟩
      exact hdisj hc (List.mem_cons_self _ _)
    rw [cleanStep_self acc k e (hgood _ (List.mem_cons_self _ _)) hknotin]
    have hnd' : ((acc ++ [(k, e)]).map Prod.fst ++ out.map Prod.fst).Nodup := by
      have h0 := hnd
      rw [List.map_cons] at h0
      simpa [List.map_append, List.append_assoc] using h0
    rw [cleanFold_refold out (acc ++ [(k, e)])
      (fun p hp => hgood p (List.mem_cons_of_mem _ hp)) hnd']
    rw [List.append_assoc]
    rfl

theorem sortPairs_pairwise {α : Type} (m : List (String × α)) :
    (sortPairs m).Pairwise (fun p q => locLe p.1 q.1 = true) :=
  sortLe_pairwise (fun a b => locLe_total a.1 b.1)
    (fun a b c => locLe_trans a.1 b.1 c.1) m

theorem sortPairs_eq_self {α : Type} {m : List (String × α)}
    (h : m.Pairwise (fun p q => locLe p.1 q.1 = true)) : sortPairs m = m :=
  sortLe_eq_self h

theorem cleanTeams_idem_aux (ts : List Team)
    (h : ∀ t ∈ ts,
      (∀ n ∈ t.names, stripRankPrefix (stripRankPrefix n) = stripRankPrefix n) ∧
      ∃ n ∈ t.names, stripRankPrefix n ≠ "") :
    cleanTeamsArray (cleanTeamsArray ts) = cleanTeamsArray ts := by
  have hgood : ∀ p ∈ cleanTeamsKeyed ts, GoodPair p := by
    intro p hp
    exact cleanFold_good ts [] h (by simp) p ((sortLe_perm _ _).mem_iff.mp hp)
  have hnd := cleanTeamsKeyed_keys_nodup ts
  have hrefold : ((cleanTeamsKeyed ts).map Prod.snd).foldl cleanStep []
      = cleanTeamsKeyed ts := by
    have h0 := cleanFold_refold (cleanTeamsKeyed ts) [] hgood (by simpa using hnd)
    simpa using h0
  have hsorted : (cleanTeamsKeyed ts).Pairwise (fun p q => locLe p.1 q.1 = true) :=
    sortPairs_pairwise _
  have hkey : cleanTeamsKeyed (cleanTeamsArray ts) = cleanTeamsKeyed ts := by
    show sortPairs (((cleanTeamsKeyed ts).map Prod.snd).foldl cleanStep [])
      = cleanTeamsKeyed ts
    rw [hrefold]
    exact sortPairs_eq_self hsorted
  calc cleanTeamsArray (cleanTeamsArray ts)
      = (cleanTeamsKeyed (cleanTeamsArray ts)).map Prod.snd := rfl
    _ = (cleanTeamsKeyed ts).map Prod.snd := by rw [hkey]
    _ = cleanTeamsArray ts := rfl

theorem regionEntryOf_strip (i : RegionItem)
    (hstrip : stripRankPrefix (stripRankPrefix (regionBase i))
      = stripRankPrefix (regionBase i)) :
    stripRankPrefix (regionBase (regionEntryOf i))
      = stripRankPrefix (regionBase i) := by
  have hbase : regionBase (regionEntryOf i)
      = if stripRankPrefix (regionBase i) ≠ "" then stripRankPrefix (regionBase i)
        else toSlug (stripRankPrefix (regionBase i)) := rfl
  by_cases hn : stripRankPrefix (regionBase i) = ""
  · rw [hbase, if_neg (by simpa using hn), hn]
    rfl
  · rw [hbase, if_pos hn]
    exact hstrip

theorem regionEntryOf_idem (i : RegionItem)
    (hstrip : stripRankPrefix (stripRankPrefix (regionBase i))
      = stripRankPrefix (regionBase i)) :
    regionEntryOf (regionEntryOf i) = regionEntryOf i := by
  have h := regionEntryOf_strip i hstrip
  show ({ slug := toSlug (stripRankPrefix (regionBase (regionEntryOf i))),
          names := [stripRankPrefix (regionBase (regionEntryOf i))],
          logo := "logos/" ++ toSlug (stripRankPrefix (regionBase (regionEntryOf i)))
            ++ ".png" } : RegionItem) = regionEntryOf i
  rw [h]
  rfl

set_option maxHeartbeats 1000000 in
theorem cleanRegionGo_self :
    ∀ (out : List RegionItem) (seen : List String),
      (∀ e ∈ out, regionEntryOf e = e) →
      ((out.map RegionItem.slug).Nodup) →
      (∀ e ∈ out, e.slug ∉ seen) →
      cleanRegionGo out seen = out
  | [], _, _, _, _ => rfl
  | e :: t, seen, hself, hnd, hfresh => by
    have hs := hself e (List.mem_cons_self _ _)
    have hslug : toSlug (stripRankPrefix (regionBase e)) = e.slug :=
      congrArg RegionItem.slug hs
    rw [cleanRegionGo]
    rw [if_neg (show ¬(toSlug (stripRankPrefix (regionBase e)) ∈ seen) from by
      rw [hslug]; exact hfresh e (List.mem_cons_self _ _))]
    have hrec : ({ slug := toSlug (stripRankPrefix (regionBase e)),
                   names := [stripRankPrefix (regionBase e)],
                   logo := "logos/" ++ toSlug (stripRankPrefix (regionBase e))
                     ++ ".png" } : RegionItem) = e := hs
    rw [hrec, hslug]
    have hheadfresh : e.slug ∉ t.map RegionItem.slug := by
      rw [List.map_cons] at hnd
      exact (List.nodup_cons.mp hnd).1
    rw [cleanRegionGo_self t (e.slug :: seen)
      (fun x hx => hself x (List.mem_cons_of_mem _ hx))
      (by rw [List.map_cons] at hnd; exact (List.nodup_cons.mp hnd).2)
      (fun x hx => by
        intro hc
        rcases List.mem_cons.mp hc with heq | hc
        · exact hheadfresh (heq ▸ List.mem_map_of_mem RegionItem.slug hx)
        · exact hfresh x (List.mem_cons_of_mem _ hx) hc)]

theorem cleanRegionList_idem (l : List RegionItem)
    (h3 : ∀ i ∈ l, stripRankPrefix (stripRankPrefix (regionBase i))
      = stripRankPrefix (regionBase i)) :
    cleanRegionList (cleanRegionList l) = cleanRegionList l := by
  refine cleanRegionGo_self (cleanRegionList l) [] ?_
    (cleanRegionGo_slugs_nodup l []).1 (by simp)
  intro e he
  rcases mem_cleanRegionGo_shape l [] e he with ⟨i, hi, rfl⟩
  exact regionEntryOf_idem i (h3 i hi)

theorem cleanRegions_idem_aux (rs : List (String × List RegionItem))
    (h3 : ∀ q ∈ rs, ∀ i ∈ q.2, stripRankPrefix (stripRankPrefix (regionBase i))
      = stripRankPrefix (regionBase i)) :
    cleanRegions (cleanRegions rs) = cleanRegions rs := by
  unfold cleanRegions
  rw [List.map_map]
  refine List.map_congr_left ?_
  intro p hp
  show (p.1, cleanRegionList (cleanRegionList p.2)) = (p.1, cleanRegionList p.2)
  rw [cleanRegionList_idem p.2 (h3 p hp)]

/-- C1 counterexample: cleanup is not idempotent.  `stripRankPrefix` is
itself not idempotent — the stored once-cleaned name `"99ers"` (from
`"1. 99ers"`) is stripped again on the second run, turning the record
into `"ers"` with a different slug and logo. -/
theorem c1_cleanup_not_idempotent :
    cleanTeamsArray [{ logo := "", names := ["1. 99ers"], slug := "" }]
      = [{ logo := "logos/99ers.png", names := ["99ers"], slug := "" }] ∧
    cleanTeamsArray (cleanTeamsArray [{ logo := "", names := ["1. 99ers"], slug := "" }])
      = [{ logo := "logos/ers.png", names := ["ers"], slug := "" }] ∧
    cleanTeamsArray (cleanTeamsArray [{ logo := "", names := ["1. 99ers"], slug := "" }])
      ≠ cleanTeamsArray [{ logo := "", names := ["1. 99ers"], slug := "" }] :=
  ⟨by decide, by decide, by decide⟩

/-- C1 (amended): cleanup is idempotent on the registries whose data the
second pass cannot re-strip — every stored team name's rank-stripped form
must itself be a `stripRankPrefix` fixed point, every team must keep at
least one non-empty name after stripping (so no slug is re-derived from a
rewritten logo path), and every region item's base name must likewise
strip to a fixed point.  Under those provisos running `cleanTeamsArray`
and `cleanRegions` twice equals running them once; without them the
counterexample applies. -/
theorem c1_cleanup_idempotent_of_stripFixed (ts : List Team)
    (rs : List (String × List RegionItem))
    (h1 : ∀ t ∈ ts, ∀ n ∈ t.names,
      stripRankPrefix (stripRankPrefix n) = stripRankPrefix n)
    (h2 : ∀ t ∈ ts, ∃ n ∈ t.names, stripRankPrefix n ≠ "")
    (h3 : ∀ q ∈ rs, ∀ i ∈ q.2,
      stripRankPrefix (stripRankPrefix (regionBase i)) = stripRankPrefix (regionBase i)) :
    cleanTeamsArray (cleanTeamsArray ts) = cleanTeamsArray ts ∧
    cleanRegions (cleanRegions rs) = cleanRegions rs :=
  ⟨cleanTeams_idem_aux ts (fun t ht => ⟨h1 t ht, h2 t ht⟩),
   cleanRegions_idem_aux rs h3⟩

/-- C1 witness: a registry with a ranked team name and a ranked region
name for which cleanup is idempotent. -/
theorem c1_witness :
    (∀ t ∈ [({ logo := "", names := ["12. Fnatic"], slug := "" } : Team)], ∀ n ∈ t.names,
      stripRankPrefix (stripRankPrefix n) = stripRankPrefix n) ∧
    (∀ t ∈ [({ logo := "", names := ["12. Fnatic"], slug := "" } : Team)],
      ∃ n ∈ t.names, stripRankPrefix n ≠ "") ∧
    (∀ q ∈ [(("EU" : String),
        [({ slug := "", names := ["7 Cloud9"], logo := "" } : RegionItem)])], ∀ i ∈ q.2,
      stripRankPrefix (stripRankPrefix (regionBase i)) = stripRankPrefix (regionBase i)) ∧
    (cleanTeamsArray (cleanTeamsArray [{ logo := "", names := ["12. Fnatic"], slug := "" }])
        = cleanTeamsArray [{ logo := "", names := ["12. Fnatic"], slug := "" }] ∧
      cleanRegions (cleanRegions [("EU", [{ slug := "", names := ["7 Cloud9"], logo := "" }])])
        = cleanRegions [("EU", [{ slug := "", names := ["7 Cloud9"], logo := "" }])]) :=
  ⟨by decide, by decide, by decide,
    c1_cleanup_idempotent_of_stripFixed
      [{ logo := "", names := ["12. Fnatic"], slug := "" }]
      [("EU", [{ slug := "", names := ["7 Cloud9"], logo := "" }])]
      (by decide) (by decide) (by decide)⟩

/-! Sortedness of the cleanup output by code point. -/

theorem toSlug_chars (s : String) :
    ∀ c ∈ (toSlug s).data, isLowAln c = true ∨ c = '-' := by
  intro c hc
  have hc' : c ∈ trimHyL (collapseNA ((latinizeL s.data).map jsLower)) := hc
  unfold trimHyL at hc'
  rw [List.mem_reverse] at hc'
  have hc2 := (List.dropWhile_sublist _).mem hc'
  rw [List.mem_reverse] at hc2
  have hc3 := (List.dropWhile_sublist _).mem hc2
  rcases mem_collapseGo hc3 with h | h
  · exact Or.inr h
  · left
    rcases hb : isLowAln c with _ | _
    · rw [hb] at h
      simp at h
    · rfl

theorem map_jsLower_id {l : List Char}
    (h : ∀ c ∈ l, isLowAln c = true ∨ c = '-') : l.map jsLower = l := by
  induction l with
  | nil => rfl
  | cons c t ih =>
    rw [List.map_cons, ih (fun x hx => h x (List.mem_cons_of_mem _ hx))]
    have hnup : ¬(65 ≤ c.toNat ∧ c.toNat ≤ 90) := by
      rcases h c (List.mem_cons_self _ _) with hc | hc
      · simp only [isLowAln, Bool.or_eq_true, Bool.and_eq_true, decide_eq_true_eq] at hc
        omega
      · subst hc
        decide
    rw [jsLower_eq_self hnup]

theorem caseMark_const {l : List Char}
    (h : ∀ c ∈ l, isLowAln c = true ∨ c = '-') :
    ∀ c ∈ l, caseMark c = '0' := by
  intro c hc
  unfold caseMark
  refine if_neg ?_
  rcases h c hc with hc' | hc'
  · simp only [isLowAln, Bool.or_eq_true, Bool.and_eq_true, decide_eq_true_eq] at hc'
    omega
  · subst hc'
    decide

theorem lexLt_of_locLe_slug {a b : String}
    (ha : ∀ c ∈ a.data, isLowAln c = true ∨ c = '-')
    (hb : ∀ c ∈ b.data, isLowAln c = true ∨ c = '-')
    (hle : locLe a b = true) (hne : a ≠ b) :
    lexCmp a.data b.data = Ordering.lt := by
  rw [locLe_eq_true_iff] at hle
  unfold locCmp at hle
  rw [map_jsLower_id ha, map_jsLower_id hb] at hle
  cases hcmp : lexCmp a.data b.data with
  | lt => rfl
  | eq =>
    have hdata : a.data = b.data := (lexCmp_eq_iff _ _).mp hcmp
    exact absurd (by cases a; cases b; exact congrArg String.mk hdata) hne
  | gt =>
    rw [hcmp] at hle
    simp at hle

theorem cleanFold_keys_slug :
    ∀ (ts : List Team) (m : List (String × Team)),
      (∀ p ∈ m, isSlugStr p.1) → ∀ p ∈ ts.foldl cleanStep m, isSlugStr p.1
  | [], _, hm => hm
  | t :: ts, m, hm => by
    rw [List.foldl_cons]
    refine cleanFold_keys_slug ts _ ?_
    intro p hp
    rcases mem_setA hp with heq | hp
    · subst heq
      exact ⟨_, rfl⟩
    · exact hm p hp

/-- C7 counterexample: re-running the cleanup on its own output does not
always yield the same record set — the stored once-cleaned name
`"42 Kings"` is stripped again on re-run, changing slug, logo and name. -/
theorem c7_rerun_changes_output :
    cleanTeamsArray (cleanTeamsArray [{ logo := "", names := ["3. 42 Kings"], slug := "" }])
      = [{ logo := "logos/kings.png", names := ["Kings"], slug := "" }] ∧
    cleanTeamsArray [{ logo := "", names := ["3. 42 Kings"], slug := "" }]
      = [{ logo := "logos/42-kings.png", names := ["42 Kings"], slug := "" }] ∧
    cleanTeamsArray (cleanTeamsArray [{ logo := "", names := ["3. 42 Kings"], slug := "" }])
      ≠ cleanTeamsArray [{ logo := "", names := ["3. 42 Kings"], slug := "" }] :=
  ⟨by decide, by decide, by decide⟩

/-- C7 (amended): for every input registry, unconditionally, the cleanup
output is sorted by slug, strictly ascending, lexicographically by code
point (the `localeCompare` order and code-point order agree on the
`[a-z0-9-]` slug alphabet), and the expand rebuild is likewise sorted,
ascending, in the `localeCompare` model order; but re-running the cleanup
on its own output yields the same order and record set only provided the
once-cleaned names cannot be re-stripped (every stored name's stripped
form is a `stripRankPrefix` fixed point and every team keeps a surviving
name). -/
theorem c7_sorted_and_stable (ts : List Team) :
    (cleanTeamsKeyed ts).Pairwise
      (fun p q => lexCmp p.1.data q.1.data = Ordering.lt) ∧
    (∀ {α : Type} (m : List (String × α)),
      (sortPairs m).Pairwise (fun p q => locLe p.1 q.1 = true)) ∧
    ((∀ t ∈ ts, ∀ n ∈ t.names,
        stripRankPrefix (stripRankPrefix n) = stripRankPrefix n) →
      (∀ t ∈ ts, ∃ n ∈ t.names, stripRankPrefix n ≠ "") →
      cleanTeamsArray (cleanTeamsArray ts) = cleanTeamsArray ts) := by
  refine ⟨?_, fun m => sortPairs_pairwise m, ?_⟩
  · have hP : (cleanTeamsKeyed ts).Pairwise (fun p q => locLe p.1 q.1 = true) :=
      sortPairs_pairwise _
    have hN : (cleanTeamsKeyed ts).Pairwise
        (fun p q : String × Team => p.1 ≠ q.1) :=
      List.pairwise_map.mp (cleanTeamsKeyed_keys_nodup ts)
    have hK : ∀ p ∈ cleanTeamsKeyed ts, isSlugStr p.1 := by
      intro p hp
      exact cleanFold_keys_slug ts [] (by simp) p ((sortLe_perm _ _).mem_iff.mp hp)
    refine List.Pairwise.imp_of_mem ?_ (hP.and hN)
    intro p q hp hq hpq
    rcases hK p hp with ⟨sp, hsp⟩
    rcases hK q hq with ⟨sq, hsq⟩
    refine lexLt_of_locLe_slug ?_ ?_ hpq.1 hpq.2
    · rw [← hsp]
      exact toSlug_chars sp
    · rw [← hsq]
      exact toSlug_chars sq
  · intro h1 h2
    exact cleanTeams_idem_aux ts (fun t ht => ⟨h1 t ht, h2 t ht⟩)

/-- C7 witness: a two-team registry; the cleanup output is sorted
(`cloud9` before `fnatic`) and, the stability provisos holding here,
cleanup of the output reproduces it. -/
theorem c7_witness :
    ((cleanTeamsKeyed [({ logo := "", names := ["2. Fnatic"], slug := "" } : Team),
        { logo := "", names := ["1. Cloud9"], slug := "" }]).Pairwise
      (fun p q => lexCmp p.1.data q.1.data = Ordering.lt) ∧
    cleanTeamsArray (cleanTeamsArray
        [({ logo := "", names := ["2. Fnatic"], slug := "" } : Team),
         { logo := "", names := ["1. Cloud9"], slug := "" }])
      = cleanTeamsArray [({ logo := "", names := ["2. Fnatic"], slug := "" } : Team),
         { logo := "", names := ["1. Cloud9"], slug := "" }]) :=
  ⟨(c7_sorted_and_stable
      [{ logo := "", names := ["2. Fnatic"], slug := "" },
       { logo := "", names := ["1. Cloud9"], slug := "" }]).1,
    (c7_sorted_and_stable
      [{ logo := "", names := ["2. Fnatic"], slug := "" },
       { logo := "", names := ["1. Cloud9"], slug := "" }]).2.2
      (by decide) (by decide)⟩

end TeamDB
